import Mathlib

/-!
Verification of the missingness-analysis module `narest.py`.

The module analyses the distribution of missing values (NaN) in
time-indexed numeric tables.  We embed it shallowly:

* a cell is `Option ℚ` (`none` is the missing marker NaN),
* a column is a `List` of cells; a table is a list of columns, all of
  the same length (the shared, strictly ordered time index is modelled
  by list positions, which is faithful because every label-based pandas
  slice used by the source is an inclusive contiguous slice of that
  ordered index),
* Python exceptions are an explicit error type, fallible functions
  return `Except`.
-/

namespace Narest

abbrev Cell := Option ℚ
abbrev Col := List Cell
abbrev Table := List Col

/-- Python exceptions that the source can raise: `ValueError`
(from `numpy.ones` on a negative size, `numpy.convolve` on an empty
operand, a length-mismatched assignment, or the explicit `raise` in
`nb_valid_windows`) and `ZeroDivisionError` (from `1/len(...)`).
`IndexError` is raised and caught inside `nan_by_window` and therefore
never escapes; it needs no constructor. -/
inductive PyErr
  | valueError
  | zeroDivisionError
  deriving DecidableEq

instance {ε α : Type} [DecidableEq ε] [DecidableEq α] : DecidableEq (Except ε α) := fun a b =>
  match a, b with
  | .error x, .error y => decidable_of_iff (x = y) (by simp)
  | .error _, .ok _ => .isFalse (by simp)
  | .ok _, .error _ => .isFalse (by simp)
  | .ok x, .ok y => decidable_of_iff (x = y) (by simp)

/-- Position of the first non-missing cell (`Series.first_valid_index`). -/
def firstValid : Col → Option Nat
  | [] => none
  | x :: rest => if x.isSome then some 0 else (firstValid rest).map (· + 1)

/-- Position of the last non-missing cell (`Series.last_valid_index`). -/
def lastValid (c : Col) : Option Nat :=
  (firstValid c.reverse).map (fun j => c.length - 1 - j)

/-- The label at which the observed span starts; `0` when the column has
no observed value (then `first_valid_index()` is `None` and the slice
`s[None:...]` starts at the first row). -/
def spanStart (c : Col) : Nat := (firstValid c).getD 0

/-- The inclusive label slice `s[s.first_valid_index():s.last_valid_index()]`.
With both bounds `None` (an all-missing column) Python returns the whole
series. -/
def pySlice (c : Col) : Col :=
  match firstValid c, lastValid c with
  | some f, some l => (c.drop f).take (l + 1 - f)
  | _, _ => c

/-- The result of `numpy.convolve(a, numpy.ones(W)/W, mode="valid")`:
`max(N,W) - min(N,W) + 1` values; for `W ≤ N` the value at `j` is the
mean of `a[j..j+W-1]`, for `W > N` (numpy swaps the operands) every
value is `a.sum / W`.  (Both operands are assumed non-empty; the callers
raise before calling `convolve` otherwise.) -/
def convOnes (a : List ℚ) (W : Nat) : List ℚ :=
  if W ≤ a.length then
    (List.range (a.length + 1 - W)).map (fun j => ((a.drop j).take W).sum / W)
  else
    (List.range (W + 1 - a.length)).map (fun _ => a.sum / W)

/-- `rolling_mean_ts`: build the output series on index `ts.index[duration-1:]`,
convolve with the uniform filter, assign.  `numpy.ones` rejects a negative
size, `1/len(ones(0))` divides by zero, `convolve` rejects an empty
series, and the assignment `output.loc[:] = ctmp` rejects a value whose
length differs from the output index. -/
def rolling_mean_ts (ts : List ℚ) (duration : Int) : Except PyErr (List ℚ) :=
  if duration < 0 then .error .valueError
  else if duration = 0 then .error .zeroDivisionError
  else if ts.length = 0 then .error .valueError
  else
    let W := duration.toNat
    let ctmp := convOnes ts W
    if ts.length + 1 = W + ctmp.length then .ok ctmp else .error .valueError

/-- One column of `rolling_mean_df`: the convolution result is written to
the rows `duration-1` onward of an all-NaN frame.  A non-positive
`duration` makes `numpy.convolve` fail (empty or rejected filter), and
for `duration > N` the `W - N + 1` convolution values do not fit the
`max(N - W + 1, 0)` target rows, so the assignment fails. -/
def rolling_mean_df_col (c : List ℚ) (duration : Int) : Except PyErr Col :=
  if duration ≤ 0 ∨ c.length = 0 then .error .valueError
  else
    let W := duration.toNat
    let conv := convOnes c W
    if c.length + 1 = W + conv.length then
      .ok (List.replicate (W - 1) none ++ conv.map some)
    else .error .valueError

/-- The column produced by the non-error branch of `rolling_mean_df_col`:
`duration - 1` leading NaN rows followed by the convolution values. -/
def rmdVal (c : List ℚ) (W : Nat) : Col :=
  List.replicate (W - 1) none ++ (convOnes c W).map some

/-- Column-by-column evaluation that stops at the first raised exception,
as `df.apply` does. -/
def exceptMap {α β : Type} (g : α → Except PyErr β) : List α → Except PyErr (List β)
  | [] => .ok []
  | a :: rest =>
    match g a with
    | .error e => .error e
    | .ok b =>
        match exceptMap g rest with
        | .error e => .error e
        | .ok bs => .ok (b :: bs)

/-- `rolling_mean_df`, column by column (`df.apply(numpy.convolve, axis=0, ...)`). -/
def rolling_mean_df (cols : List (List ℚ)) (duration : Int) : Except PyErr Table :=
  exceptMap (rolling_mean_df_col · duration) cols

/-- `df.isna()` as the 0/1 indicator used by `nan_by_window`
(`True` is 1 under convolution). -/
def isnaInd (c : Col) : List ℚ :=
  c.map (fun x => if x.isSome then 0 else 1)

/-- Multiplication of a frame column by the window length
(`... * longueur_fenetre`); NaN stays NaN. -/
def scaleCol (duration : Int) (b : Col) : Col :=
  b.map (Option.map (fun x => x * (duration : ℚ)))

/-- The per-column masking pass of `nan_by_window`.  `ts` is the span
slice of the original column; `ts.index[W-1]` raises `IndexError` when
the slice is shorter than `W`, which the source catches by blanking the
whole column.  Otherwise the inclusive label slices
`output.loc[output.index[0]:i0]` and (when `i1` is not the last label)
`output.loc[i1:output.index[-1]]` are set to NaN. -/
def maskCol (c : Col) (W : Nat) (b : Col) : Col :=
  let start := spanStart c
  let s := pySlice c
  if s.length < W then List.replicate b.length none
  else
    let i0 := start + W - 1
    let i1 := start + s.length - 1
    (List.range b.length).map (fun t =>
      if t ≤ i0 then none
      else if i1 < b.length - 1 ∧ i1 ≤ t then none
      else b.getD t none)

/-- `nan_by_window`: count NaN per trailing window by convolving the
NaN indicator, rescale the mean into a count, then mask each column
outside its quotation period. -/
def nan_by_window (cols : Table) (duration : Int) : Except PyErr Table :=
  match rolling_mean_df (cols.map isnaInd) duration with
  | .error e => .error e
  | .ok base =>
      .ok ((cols.zip base).map (fun p => maskCol p.1 duration.toNat (scaleCol duration p.2)))

/-- The cumulative count `(~mask).cumsum()` at position `i` of a series:
how many non-missing cells occur at positions `0..i` inclusive. -/
def cntValid (s : Col) (i : Nat) : Nat :=
  (s.take (i + 1)).countP (·.isSome)

/-- Whether position `i` of `s` holds the missing marker (out-of-range
positions read as observed). -/
def missingAt (s : Col) (i : Nat) : Bool :=
  (s.getD i (some 0)).isNone

/-- The `groupby((~mask).cumsum()[mask])` group of position `i`: the
missing positions sharing `i`'s cumulative count of non-missing cells. -/
def groupOf (s : Col) (i : Nat) : List Nat :=
  (List.range s.length).filter (fun j => missingAt s j && (cntValid s j == cntValid s i))

/-- The `agg(['first', 'size'])` scatter of `find_contiguous_nan` on the
span slice: position `t` receives its group's size when `t` is the first
member of its group, NaN otherwise. -/
def fcnSlice (s : Col) : Col :=
  (List.range s.length).map (fun t =>
    if missingAt s t ∧ (groupOf s t).head? = some t then
      some ((groupOf s t).length : ℚ)
    else none)

/-- One column of `find_contiguous_nan`: start from an all-NaN frame and
scatter the (first position, group size) pairs computed on the span slice
back at their original labels. -/
def find_contiguous_nan_col (c : Col) : Col :=
  let start := spanStart c
  let s := pySlice c
  (List.range c.length).map (fun t =>
    if start ≤ t ∧ t - start < s.length then (fcnSlice s).getD (t - start) none
    else none)

/-- `find_contiguous_nan`, column by column. -/
def find_contiguous_nan (cols : Table) : Table :=
  cols.map find_contiguous_nan_col

/-- One column of `pc_nan`: `stmp.isna().sum() / len(stmp) * 100` on the
span slice.  On a zero-length slice (only possible for a zero-row table)
the numpy scalar division `0/0` yields NaN, modelled as `none`. -/
def pc_nan_col (c : Col) : Option ℚ :=
  let s := pySlice c
  if s.length = 0 then none
  else some ((s.countP (·.isNone) : ℚ) / (s.length : ℚ) * 100)

/-- `pc_nan`: one percentage per column. -/
def pc_nan (cols : Table) : List (Option ℚ) :=
  cols.map pc_nan_col

/-- The cell-wise comparison `x == 0`; NaN compares unequal to everything. -/
def eqZeroCell : Cell → Bool
  | some x => decide (x = 0)
  | none => false

/-- The cell-wise comparison `x >= 0`; NaN compares `False`. -/
def geZeroCell : Cell → Bool
  | some x => decide (0 ≤ x)
  | none => false

/-- The two result shapes of `nb_valid_windows`: a boolean frame
(`modif_output=None`) or one float per column (`modif_output="pc"`,
where a column without any evaluable window divides `0/0` into NaN). -/
inductive NbValidOut
  | boolFrame (m : List (List Bool))
  | pcSeries (p : List (Option ℚ))
  deriving DecidableEq

/-- `nb_valid_windows`: `npf==0` as a boolean frame, or per column
`(npf==0).sum()/((npf>=0).sum()) * 100`, or `ValueError` on an unknown
`modif_output`. -/
def nb_valid_windows (cols : Table) (duration : Int) (modif_output : Option String) :
    Except PyErr NbValidOut :=
  match nan_by_window cols duration with
  | .error e => .error e
  | .ok npf =>
      match modif_output with
      | some m =>
          if m = "pc" then
            .ok (.pcSeries (npf.map (fun col =>
              let num : Nat := col.countP eqZeroCell
              let den : Nat := col.countP geZeroCell
              if den = 0 then none else some ((num : ℚ) / (den : ℚ) * 100))))
          else .error .valueError
      | none => .ok (.boolFrame (npf.map (fun col => col.map eqZeroCell)))

/-- Cell-wise subtraction for `df - df.shift(1)`; NaN propagates. -/
def subCell : Cell → Cell → Cell
  | some a, some b => some (a - b)
  | _, _ => none

/-- `df.shift(1)` on one column: every row receives the previous row's
value, the first row receives NaN. -/
def shift1 (c : Col) : Col := none :: c.dropLast

/-- One column of `find_ffill_nan`: `(c - c.shift(1)) == 0`. -/
def find_ffill_nan_col (c : Col) : List Bool :=
  (c.zip (shift1 c)).map (fun p => eqZeroCell (subCell p.1 p.2))

/-- `find_ffill_nan`: flag cells equal to their predecessor. -/
def find_ffill_nan (cols : Table) : List (List Bool) :=
  cols.map find_ffill_nan_col

/-! ## Specification-side definitions

The following definitions are written from the specification's words,
to be compared with the embedded code. -/

/-- Following the specification: the length of the maximal contiguous
run of missing values starting at position `t`. -/
def runLen (c : Col) (t : Nat) : Nat :=
  ((c.drop t).takeWhile (·.isNone)).length

/-- Following the specification: the number of missing entries within
the column's ObservedSpan (`0` when the span is empty, i.e. the column
has no observed value). -/
def missingInSpan (c : Col) : Nat :=
  match firstValid c, lastValid c with
  | some f, some l =>
      (List.range c.length).countP (fun t => decide (f ≤ t) && decide (t ≤ l) && missingAt c t)
  | _, _ => 0

/-- Following the specification: the count of missing values among the
`W` consecutive cells ending at position `t`. -/
def windowCount (c : Col) (W t : Nat) : Nat :=
  ((c.drop (t + 1 - W)).take W).countP (·.isNone)

/-- Following the specification's words for claim C1: the windowed
missing count holds exactly at the positions where the full trailing
window of length `W` lies within the column's ObservedSpan
(`f + W - 1 ≤ t ≤ l`), the missing marker everywhere else, and an
all-missing column (empty ObservedSpan) is entirely missing. -/
def specNanByWindowCol (c : Col) (W : Nat) : Col :=
  match firstValid c, lastValid c with
  | some f, some l =>
      (List.range c.length).map (fun t =>
        if f + W - 1 ≤ t ∧ t ≤ l then some ((windowCount c W t : ℚ)) else none)
  | _, _ => List.replicate c.length none

/-- Following the specification's words for claim C10: `True` at `(t, c)`
exactly when the value at `t` and the value at `t - 1` are both present
and equal; the first row is `False`. -/
def specRepeat (c : Col) (t : Nat) : Bool :=
  if t = 0 then false
  else
    match c.getD t none, c.getD (t - 1) none with
    | some a, some b => decide (a = b)
    | _, _ => false

/-! ## Basic lemmas about cell access and the observed span -/

theorem getD_of_lt {α : Type} (l : List α) (i : Nat) (d : α) (h : i < l.length) :
    l.getD i d = l[i] := by
  simp [List.getD_eq_getElem?_getD, List.getElem?_eq_getElem h]

theorem getD_of_le {α : Type} (l : List α) (i : Nat) (d : α) (h : l.length ≤ i) :
    l.getD i d = d := by
  rw [List.getD_eq_getElem?_getD, List.getElem?_eq_none h]
  rfl

theorem missingAt_cons_zero (x : Cell) (rest : Col) : missingAt (x :: rest) 0 = x.isNone := by
  simp [missingAt]

theorem missingAt_cons_succ (x : Cell) (rest : Col) (j : Nat) :
    missingAt (x :: rest) (j + 1) = missingAt rest j := by
  simp [missingAt]

theorem missingAt_of_le (c : Col) (j : Nat) (h : c.length ≤ j) : missingAt c j = false := by
  rw [missingAt, getD_of_le c j (some 0) h]
  rfl

theorem firstValid_eq_some_iff (c : Col) (f : Nat) :
    firstValid c = some f ↔
      f < c.length ∧ missingAt c f = false ∧ ∀ j, j < f → missingAt c j = true := by
  induction c generalizing f with
  | nil => simp [firstValid]
  | cons x rest ih =>
    by_cases hx : x.isSome
    · have hxe : x.isNone = false := by
        cases x <;> simp_all
      constructor
      · intro h
        simp [firstValid, hx] at h
        subst h
        refine ⟨by simp, by simp [missingAt_cons_zero, hxe], by omega⟩
      · rintro ⟨-, hmiss, hbefore⟩
        rcases Nat.eq_zero_or_pos f with hf | hf
        · subst hf; simp [firstValid, hx]
        · have := hbefore 0 hf
          rw [missingAt_cons_zero, hxe] at this
          exact absurd this (by simp)
    · have hxe : x.isNone = true := by
        cases x <;> simp_all
      constructor
      · intro h
        simp [firstValid, hx] at h
        obtain ⟨f0, hf0, rfl⟩ := h
        obtain ⟨h1, h2, h3⟩ := (ih f0).mp hf0
        refine ⟨by simpa using h1, by simpa [missingAt_cons_succ] using h2, ?_⟩
        intro j hj
        cases j with
        | zero => simp [missingAt_cons_zero, hxe]
        | succ j0 => rw [missingAt_cons_succ]; exact h3 j0 (by omega)
      · rintro ⟨h1, h2, h3⟩
        cases f with
        | zero =>
          rw [missingAt_cons_zero, hxe] at h2
          exact absurd h2 (by simp)
        | succ f0 =>
          have : firstValid rest = some f0 := by
            refine (ih f0).mpr ⟨by simpa using h1, by simpa [missingAt_cons_succ] using h2, ?_⟩
            intro j hj
            have := h3 (j + 1) (by omega)
            rwa [missingAt_cons_succ] at this
          simp [firstValid, hx, this]

theorem firstValid_eq_none_iff (c : Col) :
    firstValid c = none ↔ ∀ j, j < c.length → missingAt c j = true := by
  induction c with
  | nil => simp [firstValid]
  | cons x rest ih =>
    by_cases hx : x.isSome
    · have hxe : x.isNone = false := by cases x <;> simp_all
      simp only [firstValid, hx, if_pos]
      constructor
      · intro h; exact absurd h (by simp)
      · intro h
        have := h 0 (by simp)
        rw [missingAt_cons_zero, hxe] at this
        exact absurd this (by simp)
    · have hxe : x.isNone = true := by cases x <;> simp_all
      have hstep : firstValid (x :: rest) = (firstValid rest).map (· + 1) := by
        simp [firstValid, hx]
      rw [hstep, Option.map_eq_none', ih]
      constructor
      · intro h j hj
        cases j with
        | zero => simp [missingAt_cons_zero, hxe]
        | succ j0 => rw [missingAt_cons_succ]; exact h j0 (by simpa using hj)
      · intro h j hj
        have := h (j + 1) (by simpa using hj)
        rwa [missingAt_cons_succ] at this

theorem missingAt_reverse (c : Col) (j : Nat) (hj : j < c.length) :
    missingAt c.reverse j = missingAt c (c.length - 1 - j) := by
  have hrl : j < c.reverse.length := by simpa using hj
  have hcl : c.length - 1 - j < c.length := by omega
  rw [missingAt, missingAt, getD_of_lt _ _ _ hrl, getD_of_lt _ _ _ hcl,
    List.getElem_reverse]

theorem lastValid_eq_some_iff (c : Col) (l : Nat) :
    lastValid c = some l ↔
      l < c.length ∧ missingAt c l = false ∧
        ∀ j, l < j → j < c.length → missingAt c j = true := by
  unfold lastValid
  constructor
  · intro h
    rw [Option.map_eq_some'] at h
    obtain ⟨j, hj, rfl⟩ := h
    obtain ⟨hj1, hj2, hj3⟩ := (firstValid_eq_some_iff _ _).mp hj
    rw [List.length_reverse] at hj1
    have hlen : 0 < c.length := by omega
    refine ⟨by omega, ?_, ?_⟩
    · rwa [missingAt_reverse c j hj1] at hj2
    · intro j' hj'1 hj'2
      have h1 : c.length - 1 - j' < j := by omega
      have h2' := hj3 _ h1
      rw [missingAt_reverse c _ (by omega)] at h2'
      have heq : c.length - 1 - (c.length - 1 - j') = j' := by omega
      rwa [heq] at h2'
  · rintro ⟨h1, h2, h3⟩
    have hlen : 0 < c.length := by omega
    have hfv : firstValid c.reverse = some (c.length - 1 - l) := by
      refine (firstValid_eq_some_iff _ _).mpr ⟨by simp; omega, ?_, ?_⟩
      · rw [missingAt_reverse c _ (by omega)]
        have : c.length - 1 - (c.length - 1 - l) = l := by omega
        rwa [this]
      · intro j hj
        rw [missingAt_reverse c _ (by omega)]
        exact h3 _ (by omega) (by omega)
    rw [hfv]
    simp
    omega

theorem lastValid_eq_none_iff (c : Col) :
    lastValid c = none ↔ ∀ j, j < c.length → missingAt c j = true := by
  unfold lastValid
  rw [Option.map_eq_none', firstValid_eq_none_iff]
  constructor
  · intro h j hj
    have := h (c.length - 1 - j) (by simp; omega)
    rw [missingAt_reverse c _ (by simp at *; omega)] at this
    have heq : c.length - 1 - (c.length - 1 - j) = j := by omega
    rwa [heq] at this
  · intro h j hj
    rw [List.length_reverse] at hj
    rw [missingAt_reverse c j hj]
    exact h _ (by omega)

theorem firstValid_none_of_lastValid_none (c : Col) (h : lastValid c = none) :
    firstValid c = none :=
  (firstValid_eq_none_iff c).mpr ((lastValid_eq_none_iff c).mp h)

theorem lastValid_isSome_of_firstValid (c : Col) (f : Nat) (h : firstValid c = some f) :
    ∃ l, lastValid c = some l := by
  cases hlv : lastValid c with
  | none =>
    rw [firstValid_none_of_lastValid_none c hlv] at h
    exact absurd h (by simp)
  | some l => exact ⟨l, rfl⟩

theorem firstValid_le_lastValid (c : Col) (f l : Nat)
    (hf : firstValid c = some f) (hl : lastValid c = some l) : f ≤ l := by
  obtain ⟨hf1, hf2, hf3⟩ := (firstValid_eq_some_iff c f).mp hf
  obtain ⟨hl1, hl2, hl3⟩ := (lastValid_eq_some_iff c l).mp hl
  by_contra hlt
  have := hf3 l (by omega)
  rw [hl2] at this
  exact absurd this (by simp)

theorem pySlice_of_valid (c : Col) (f l : Nat)
    (hf : firstValid c = some f) (hl : lastValid c = some l) :
    pySlice c = (c.drop f).take (l + 1 - f) := by
  unfold pySlice
  rw [hf, hl]

theorem pySlice_length (c : Col) (f l : Nat)
    (hf : firstValid c = some f) (hl : lastValid c = some l) :
    (pySlice c).length = l + 1 - f := by
  obtain ⟨hf1, -, -⟩ := (firstValid_eq_some_iff c f).mp hf
  obtain ⟨hl1, -, -⟩ := (lastValid_eq_some_iff c l).mp hl
  rw [pySlice_of_valid c f l hf hl]
  simp [List.length_take, List.length_drop]
  omega

theorem pySlice_getD (c : Col) (f l : Nat)
    (hf : firstValid c = some f) (hl : lastValid c = some l)
    (u : Nat) (hu : u < l + 1 - f) (d : Cell) :
    (pySlice c).getD u d = c.getD (f + u) d := by
  obtain ⟨hf1, -, -⟩ := (firstValid_eq_some_iff c f).mp hf
  obtain ⟨hl1, -, -⟩ := (lastValid_eq_some_iff c l).mp hl
  have hfu : f + u < c.length := by omega
  rw [pySlice_of_valid c f l hf hl]
  have hus : u < ((c.drop f).take (l + 1 - f)).length := by
    simp [List.length_take, List.length_drop]
    omega
  rw [getD_of_lt _ _ _ hus, getD_of_lt _ _ _ hfu]
  simp [List.getElem_take, List.getElem_drop]

theorem pySlice_all_missing (c : Col) (h : firstValid c = none) : pySlice c = c := by
  unfold pySlice
  rw [h]

theorem missingAt_pySlice (c : Col) (f l : Nat)
    (hf : firstValid c = some f) (hl : lastValid c = some l)
    (u : Nat) (hu : u < l + 1 - f) :
    missingAt (pySlice c) u = missingAt c (f + u) := by
  rw [missingAt, missingAt, pySlice_getD c f l hf hl u hu]

/-! ## Lemmas about the moving-average primitive -/

theorem sum_slice (l : List ℚ) (a k : Nat) (h : a + k ≤ l.length) :
    ((l.drop a).take k).sum = Finset.sum (Finset.range k) (fun j => l.getD (a + j) 0) := by
  induction k with
  | zero => simp
  | succ k0 ih =>
    have hlt : a + k0 < l.length := by omega
    have hk0 : k0 < (l.drop a).length := by simp [List.length_drop]; omega
    rw [List.take_succ, List.sum_append, ih (by omega), Finset.sum_range_succ]
    have hget : (l.drop a)[k0]? = some (l.getD (a + k0) 0) := by
      rw [List.getElem?_eq_getElem hk0, getD_of_lt l (a + k0) 0 hlt]
      congr 1
      rw [List.getElem_drop]
    rw [hget]
    simp

theorem convOnes_length_le (a : List ℚ) (W : Nat) (h : W ≤ a.length) :
    (convOnes a W).length = a.length + 1 - W := by
  simp [convOnes, h]

theorem convOnes_length_gt (a : List ℚ) (W : Nat) (h : a.length < W) :
    (convOnes a W).length = W + 1 - a.length := by
  rw [convOnes, if_neg (by omega)]
  simp

theorem convOnes_getD (a : List ℚ) (W j : Nat) (hW : W ≤ a.length)
    (hj : j < a.length + 1 - W) :
    (convOnes a W).getD j 0 = ((a.drop j).take W).sum / W := by
  rw [convOnes, if_pos hW]
  rw [getD_of_lt _ _ _ (by simp [List.length_map]; omega)]
  simp

theorem rolling_mean_ts_ok (ts : List ℚ) (W : Nat) (hW : 1 ≤ W) (hN : W ≤ ts.length) :
    rolling_mean_ts ts (W : Int) = .ok (convOnes ts W) := by
  unfold rolling_mean_ts
  rw [if_neg (by omega), if_neg (by omega), if_neg (by omega)]
  show (if ts.length + 1 = W + (convOnes ts W).length then Except.ok (convOnes ts W)
    else Except.error PyErr.valueError) = Except.ok (convOnes ts W)
  rw [convOnes_length_le ts W hN]
  rw [if_pos (by omega)]

theorem rolling_mean_ts_err_of_short (ts : List ℚ) (W : Int) (h : (ts.length : Int) < W) :
    rolling_mean_ts ts W = .error .valueError := by
  unfold rolling_mean_ts
  rw [if_neg (by omega), if_neg (by omega)]
  by_cases hts : ts.length = 0
  · rw [if_pos hts]
  · rw [if_neg hts]
    show (if ts.length + 1 = W.toNat + (convOnes ts W.toNat).length
      then Except.ok (convOnes ts W.toNat) else Except.error PyErr.valueError) =
        Except.error PyErr.valueError
    have hWN : ts.length < W.toNat := by omega
    rw [convOnes_length_gt ts W.toNat hWN]
    rw [if_neg (by omega)]

theorem rolling_mean_df_col_ok (c : List ℚ) (W : Nat) (hW : 1 ≤ W) (hN : W ≤ c.length) :
    rolling_mean_df_col c (W : Int) =
      .ok (List.replicate (W - 1) none ++ (convOnes c W).map some) := by
  unfold rolling_mean_df_col
  rw [if_neg (by push_neg; constructor <;> omega)]
  show (if c.length + 1 = (W : Int).toNat + (convOnes c (W : Int).toNat).length
    then Except.ok (List.replicate ((W : Int).toNat - 1) none ++
      (convOnes c (W : Int).toNat).map some)
    else Except.error PyErr.valueError) = _
  have ht : (W : Int).toNat = W := by omega
  rw [ht, convOnes_length_le c W hN, if_pos (by omega)]

theorem rolling_mean_df_col_err_of_short (c : List ℚ) (W : Int) (h : (c.length : Int) < W) :
    rolling_mean_df_col c W = .error .valueError := by
  unfold rolling_mean_df_col
  by_cases hts : c.length = 0
  · rw [if_pos (Or.inr hts)]
  · rw [if_neg (by push_neg; constructor <;> omega)]
    show (if c.length + 1 = W.toNat + (convOnes c W.toNat).length
      then Except.ok (List.replicate (W.toNat - 1) none ++ (convOnes c W.toNat).map some)
      else Except.error PyErr.valueError) = Except.error PyErr.valueError
    have hWN : c.length < W.toNat := by omega
    rw [convOnes_length_gt c W.toNat hWN]
    rw [if_neg (by omega)]

theorem rolling_mean_df_col_err_of_nonpos (c : List ℚ) (W : Int) (h : W ≤ 0) :
    rolling_mean_df_col c W = .error .valueError := by
  unfold rolling_mean_df_col
  rw [if_pos (Or.inl h)]

theorem rolling_mean_df_col_len (c : List ℚ) (W : Nat) (hW : 1 ≤ W) (hN : W ≤ c.length) :
    (List.replicate (W - 1) none ++ (convOnes c W).map some).length = c.length := by
  simp [List.length_replicate, List.length_map, convOnes_length_le c W hN]
  omega

/-! ## Lemmas about `exceptMap` -/

theorem exceptMap_ok {α β : Type} (g : α → Except PyErr β) (da : α) (db : β) :
    ∀ (l : List α) (out : List β), exceptMap g l = .ok out →
      out.length = l.length ∧ ∀ k, k < l.length → g (l.getD k da) = .ok (out.getD k db) := by
  intro l
  induction l with
  | nil =>
    intro out h
    simp only [exceptMap] at h
    cases h
    exact ⟨rfl, fun k hk => absurd hk (by simp)⟩
  | cons a rest ih =>
    intro out h
    cases hg : g a with
    | error e => simp [exceptMap, hg] at h
    | ok b =>
      cases hrest : exceptMap g rest with
      | error e => simp [exceptMap, hg, hrest] at h
      | ok bs =>
        simp only [exceptMap, hg, hrest] at h
        cases h
        obtain ⟨ih1, ih2⟩ := ih bs hrest
        refine ⟨by simp [ih1], ?_⟩
        intro k hk
        cases k with
        | zero => simpa using hg
        | succ k0 => simpa using ih2 k0 (by simpa using hk)

theorem exceptMap_exists {α β : Type} (g : α → Except PyErr β) :
    ∀ (l : List α), (∀ a ∈ l, ∃ b, g a = .ok b) → ∃ out, exceptMap g l = .ok out := by
  intro l
  induction l with
  | nil => exact fun _ => ⟨[], rfl⟩
  | cons a rest ih =>
    intro h
    obtain ⟨b, hb⟩ := h a (by simp)
    obtain ⟨bs, hbs⟩ := ih (fun x hx => h x (by simp [hx]))
    exact ⟨b :: bs, by simp [exceptMap, hb, hbs]⟩

theorem exceptMap_singleton {α β : Type} (g : α → Except PyErr β) (a : α) (b : β)
    (h : g a = .ok b) : exceptMap g [a] = .ok [b] := by
  simp [exceptMap, h]

theorem exceptMap_err_head {α β : Type} (g : α → Except PyErr β) (a : α) (rest : List α)
    (e : PyErr) (h : g a = .error e) : exceptMap g (a :: rest) = .error e := by
  simp [exceptMap, h]

/-! ## Lemmas about the cumulative non-missing count -/

theorem getD_range_map {β : Type} (g : Nat → β) (n t : Nat) (ht : t < n) (d : β) :
    ((List.range n).map g).getD t d = g t := by
  rw [getD_of_lt _ _ _ (by simp [List.length_map]; omega)]
  simp

theorem cntValid_succ (s : Col) (i : Nat) (h : i + 1 < s.length) :
    cntValid s (i + 1) = cntValid s i + (if missingAt s (i + 1) = true then 0 else 1) := by
  rw [cntValid, cntValid, List.take_succ, List.countP_append]
  rw [List.getElem?_eq_getElem h]
  rw [missingAt, getD_of_lt _ _ _ h]
  cases hx : s[i + 1] <;> simp [hx]

theorem cntValid_mono (s : Col) (i : Nat) :
    ∀ d, i + d < s.length → cntValid s i ≤ cntValid s (i + d) := by
  intro d
  induction d with
  | zero => intro _; exact Nat.le_refl _
  | succ d0 ih =>
    intro h
    have h0 : i + d0 < s.length := by omega
    have := cntValid_succ s (i + d0) (by omega)
    rw [show i + (d0 + 1) = i + d0 + 1 by omega, this]
    have := ih h0
    split <;> omega

theorem cntValid_flat (s : Col) (i : Nat) :
    ∀ d, (∀ m, i < m → m ≤ i + d → missingAt s m = true) → i + d < s.length →
      cntValid s (i + d) = cntValid s i := by
  intro d
  induction d with
  | zero => intro _ _; rfl
  | succ d0 ih =>
    intro hm h
    have hstep := cntValid_succ s (i + d0) (by omega)
    rw [show i + (d0 + 1) = i + d0 + 1 by omega, hstep]
    rw [hm (i + d0 + 1) (by omega) (by omega)]
    simp
    exact ih (fun m h1 h2 => hm m h1 (by omega)) (by omega)

theorem cntValid_lt (s : Col) (i j m : Nat) (_hij : i ≤ j) (hj : j < s.length)
    (him : i < m) (hmj : m ≤ j) (hm : missingAt s m = false) :
    cntValid s i < cntValid s j := by
  have hm1 : m - 1 + 1 = m := by omega
  have hstep := cntValid_succ s (m - 1) (by omega)
  rw [hm1] at hstep
  rw [hm] at hstep
  simp at hstep
  have h1 : cntValid s i ≤ cntValid s (m - 1) := by
    have := cntValid_mono s i (m - 1 - i) (by omega)
    rwa [show i + (m - 1 - i) = m - 1 by omega] at this
  have h2 : cntValid s m ≤ cntValid s j := by
    have := cntValid_mono s m (j - m) (by omega)
    rwa [show m + (j - m) = j by omega] at this
  omega

theorem cntValid_eq_iff_run (s : Col) (i j : Nat) (hij : i ≤ j) (hj : j < s.length)
    (hmi : missingAt s i = true) (_hmj : missingAt s j = true) :
    cntValid s i = cntValid s j ↔ ∀ m, i ≤ m → m ≤ j → missingAt s m = true := by
  constructor
  · intro heq m h1 h2
    by_contra hnot
    have hm : missingAt s m = false := by
      cases hmm : missingAt s m
      · rfl
      · exact absurd hmm hnot
    have him : i < m := by
      rcases Nat.lt_or_ge i m with h | h
      · exact h
      · have : m = i := by omega
        rw [this, hmi] at hm
        exact absurd hm (by simp)
    exact absurd heq (by have := cntValid_lt s i j m hij hj him h2 hm; omega)
  · intro hall
    have := cntValid_flat s i (j - i) (fun m h1 h2 => hall m (by omega) (by omega))
      (by omega)
    rw [show i + (j - i) = j by omega] at this
    omega

/-! ## Lemmas about maximal missing runs -/

theorem runLen_of_le (c : Col) (t : Nat) (h : c.length ≤ t) : runLen c t = 0 := by
  rw [runLen, List.drop_eq_nil_of_le h]
  rfl

theorem runLen_rec (c : Col) (t : Nat) (h : t < c.length) :
    runLen c t = if missingAt c t = true then runLen c (t + 1) + 1 else 0 := by
  rw [runLen, List.drop_eq_getElem_cons h, List.takeWhile_cons]
  rw [missingAt, getD_of_lt _ _ _ h]
  by_cases hx : (c.get ⟨t, h⟩).isNone = true
  · rw [List.get_eq_getElem] at hx
    rw [hx, if_pos rfl, if_pos rfl]
    simp [runLen]
  · rw [List.get_eq_getElem] at hx
    rw [if_neg hx, if_neg (by simpa using hx)]
    rfl

theorem runLen_le_sub (c : Col) (t : Nat) : runLen c t ≤ c.length - t := by
  have hsub : List.Sublist ((c.drop t).takeWhile (·.isNone)) (c.drop t) :=
    List.takeWhile_sublist _
  have h1 := hsub.length_le
  rw [runLen]
  simpa [List.length_drop] using h1

theorem runLen_missing (c : Col) : ∀ i t, i < runLen c t → missingAt c (t + i) = true := by
  intro i
  induction i with
  | zero =>
    intro t h
    by_cases ht : t < c.length
    · rw [runLen_rec c t ht] at h
      by_cases hm : missingAt c t = true
      · simpa using hm
      · rw [if_neg hm] at h
        exact absurd h (by omega)
    · rw [runLen_of_le c t (by omega)] at h
      exact absurd h (by omega)
  | succ i0 ih =>
    intro t h
    by_cases ht : t < c.length
    · rw [runLen_rec c t ht] at h
      by_cases hm : missingAt c t = true
      · rw [if_pos hm] at h
        have := ih (t + 1) (by omega)
        rwa [show t + 1 + i0 = t + (i0 + 1) by omega] at this
      · rw [if_neg hm] at h
        exact absurd h (by omega)
    · rw [runLen_of_le c t (by omega)] at h
      exact absurd h (by omega)

theorem runLen_end (c : Col) : ∀ t, t + runLen c t < c.length →
    missingAt c (t + runLen c t) = false := by
  induction c with
  | nil => intro t h; simp at h
  | cons x c' ih =>
    intro t h
    cases t with
    | zero =>
      by_cases hx : x.isNone = true
      · have hrl : runLen (x :: c') 0 = runLen c' 0 + 1 := by
          rw [runLen_rec (x :: c') 0 (by simp),
            if_pos (by rw [missingAt_cons_zero]; exact hx)]
          rfl
        rw [hrl]
        rw [show 0 + (runLen c' 0 + 1) = runLen c' 0 + 1 by omega, missingAt_cons_succ]
        have hlen : 0 + runLen c' 0 < c'.length := by
          rw [hrl] at h
          simp at h
          omega
        have := ih 0 hlen
        rwa [show 0 + runLen c' 0 = runLen c' 0 by omega] at this
      · have hrl : runLen (x :: c') 0 = 0 := by
          rw [runLen_rec (x :: c') 0 (by simp),
            if_neg (by rw [missingAt_cons_zero]; simpa using hx)]
        rw [hrl, missingAt_cons_zero]
        cases x <;> simp_all
    | succ t0 =>
      have hrl : runLen (x :: c') (t0 + 1) = runLen c' t0 := by
        simp only [runLen, List.drop_succ_cons]
      rw [hrl, show t0 + 1 + runLen c' t0 = (t0 + runLen c' t0) + 1 by omega,
        missingAt_cons_succ]
      apply ih
      rw [hrl] at h
      simp at h
      omega

theorem runLen_end_false (c : Col) (t : Nat) : missingAt c (t + runLen c t) = false := by
  by_cases h : t + runLen c t < c.length
  · exact runLen_end c t h
  · exact missingAt_of_le c _ (by omega)

theorem runLen_pos (c : Col) (t : Nat) (ht : t < c.length) (hm : missingAt c t = true) :
    1 ≤ runLen c t := by
  rw [runLen_rec c t ht, if_pos hm]
  omega

theorem runLen_unique (c : Col) (t r : Nat)
    (h1 : ∀ i, i < r → missingAt c (t + i) = true)
    (h2 : missingAt c (t + r) = false) :
    runLen c t = r := by
  rcases Nat.lt_trichotomy (runLen c t) r with h | h | h
  · have hmiss := h1 (runLen c t) h
    rw [runLen_end_false c t] at hmiss
    exact absurd hmiss (by simp)
  · exact h
  · have hmiss := runLen_missing c r t h
    rw [h2] at hmiss
    exact absurd hmiss (by simp)

/-! ## Lemmas about the grouping idiom of `find_contiguous_nan` -/

theorem head_filter_range (p : Nat → Bool) (h : Nat) :
    ∀ n, (((List.range n).filter p).head? = some h ↔
      h < n ∧ p h = true ∧ ∀ j, j < h → p j = false) := by
  intro n
  induction n generalizing p h with
  | zero => simp
  | succ n0 ih =>
    rw [List.range_succ_eq_map, List.filter_cons]
    by_cases hp0 : p 0 = true
    · rw [if_pos hp0]
      constructor
      · intro hh
        simp at hh
        subst hh
        exact ⟨by omega, hp0, by omega⟩
      · rintro ⟨h1, h2, h3⟩
        rcases Nat.eq_zero_or_pos h with h0 | h0
        · subst h0; rfl
        · have := h3 0 h0
          rw [hp0] at this
          exact absurd this (by simp)
    · rw [if_neg hp0]
      rw [List.filter_map, List.head?_map]
      have hp0' : p 0 = false := by
        cases hpp : p 0
        · rfl
        · exact absurd hpp hp0
      constructor
      · intro hh
        rw [Option.map_eq_some'] at hh
        obtain ⟨h0, hh0, rfl⟩ := hh
        obtain ⟨g1, g2, g3⟩ := (ih (fun x => p (Nat.succ x)) h0).mp hh0
        refine ⟨by omega, g2, ?_⟩
        intro j hj
        cases j with
        | zero => exact hp0'
        | succ j0 => exact g3 j0 (by omega)
      · rintro ⟨h1, h2, h3⟩
        cases h with
        | zero => rw [hp0'] at h2; exact absurd h2 (by simp)
        | succ h0 =>
          rw [Option.map_eq_some']
          refine ⟨h0, ?_, rfl⟩
          exact (ih (fun x => p (Nat.succ x)) h0).mpr
            ⟨by omega, h2, fun j hj => h3 (j + 1) (by omega)⟩

theorem countP_range_interval (a k : Nat) :
    ∀ n, (List.range n).countP (fun j => decide (a ≤ j ∧ j < a + k)) = min (n - a) k := by
  intro n
  induction n with
  | zero => simp
  | succ n0 ih =>
    rw [List.range_succ, List.countP_append, ih]
    have hone : List.countP (fun j => decide (a ≤ j ∧ j < a + k)) [n0] =
        if a ≤ n0 ∧ n0 < a + k then 1 else 0 := by
      rw [List.countP_cons]
      simp
    rw [hone]
    split
    · omega
    · omega

theorem groupOf_mem_iff (s : Col) (t : Nat) (ht : t < s.length) (hmt : missingAt s t = true)
    (hstart : t = 0 ∨ missingAt s (t - 1) = false) (j : Nat) :
    (missingAt s j && (cntValid s j == cntValid s t)) = true ↔
      t ≤ j ∧ j < t + runLen s t := by
  have hrl_le : runLen s t ≤ s.length - t := runLen_le_sub s t
  constructor
  · intro hj
    rw [Bool.and_eq_true, beq_iff_eq] at hj
    obtain ⟨hmj, hcnt⟩ := hj
    have hjlen : j < s.length := by
      by_contra hge
      rw [missingAt_of_le s j (by omega)] at hmj
      exact absurd hmj (by simp)
    rcases Nat.lt_or_ge j t with hlt | hge
    · exfalso
      have hall := (cntValid_eq_iff_run s j t (by omega) ht hmj hmt).mp hcnt
      rcases hstart with h0 | h0
      · omega
      · have := hall (t - 1) (by omega) (by omega)
        rw [h0] at this
        exact absurd this (by simp)
    · refine ⟨hge, ?_⟩
      have hall := (cntValid_eq_iff_run s t j hge hjlen hmt hmj).mp hcnt.symm
      by_contra hbig
      have hmr := hall (t + runLen s t) (by omega) (by omega)
      rw [runLen_end_false s t] at hmr
      exact absurd hmr (by simp)
  · rintro ⟨h1, h2⟩
    have hjlen : j < s.length := by omega
    have hmj : missingAt s j = true := by
      have := runLen_missing s (j - t) t (by omega)
      rwa [show t + (j - t) = j by omega] at this
    rw [Bool.and_eq_true, beq_iff_eq]
    refine ⟨hmj, ?_⟩
    have := (cntValid_eq_iff_run s t j h1 hjlen hmt hmj).mpr ?_
    · omega
    · intro m hm1 hm2
      have := runLen_missing s (m - t) t (by omega)
      rwa [show t + (m - t) = m by omega] at this

theorem groupOf_eq_of_start (s : Col) (t : Nat) (ht : t < s.length)
    (hmt : missingAt s t = true) (hstart : t = 0 ∨ missingAt s (t - 1) = false) :
    groupOf s t = (List.range s.length).filter
      (fun j => decide (t ≤ j ∧ j < t + runLen s t)) := by
  rw [groupOf]
  apply List.filter_congr
  intro j hj
  have hiff := groupOf_mem_iff s t ht hmt hstart j
  cases hb : (missingAt s j && (cntValid s j == cntValid s t))
  · have : ¬(t ≤ j ∧ j < t + runLen s t) := by
      intro hc
      have := hiff.mpr hc
      rw [hb] at this
      exact absurd this (by simp)
    simp [this]
  · have := hiff.mp hb
    simp [this]

theorem groupOf_length_of_start (s : Col) (t : Nat) (ht : t < s.length)
    (hmt : missingAt s t = true) (hstart : t = 0 ∨ missingAt s (t - 1) = false) :
    (groupOf s t).length = runLen s t := by
  rw [groupOf_eq_of_start s t ht hmt hstart, ← List.countP_eq_length_filter,
    countP_range_interval t (runLen s t) s.length]
  have := runLen_le_sub s t
  omega

theorem groupOf_head_of_start (s : Col) (t : Nat) (ht : t < s.length)
    (hmt : missingAt s t = true) (hstart : t = 0 ∨ missingAt s (t - 1) = false) :
    (groupOf s t).head? = some t := by
  rw [groupOf]
  apply (head_filter_range _ t s.length).mpr
  refine ⟨ht, ?_, ?_⟩
  · exact (groupOf_mem_iff s t ht hmt hstart t).mpr ⟨Nat.le_refl t, by
      have := runLen_pos s t ht hmt
      omega⟩
  · intro j hj
    cases hb : (missingAt s j && (cntValid s j == cntValid s t))
    · rfl
    · have := (groupOf_mem_iff s t ht hmt hstart j).mp hb
      omega

theorem groupOf_head_of_not_start (s : Col) (t : Nat) (ht : t < s.length)
    (hmt : missingAt s t = true) (h1 : 1 ≤ t) (hm1 : missingAt s (t - 1) = true) :
    (groupOf s t).head? ≠ some t := by
  intro hc
  rw [groupOf] at hc
  have hspec := (head_filter_range _ t s.length).mp hc
  have hprev := hspec.2.2 (t - 1) (by omega)
  have hcnt : cntValid s (t - 1) = cntValid s t := by
    apply (cntValid_eq_iff_run s (t - 1) t (by omega) ht hm1 hmt).mpr
    intro m hm hm2
    rcases Nat.lt_or_ge m t with hmt' | hmt'
    · have : m = t - 1 := by omega
      rwa [this]
    · have : m = t := by omega
      rwa [this]
  rw [hm1, hcnt] at hprev
  simp at hprev

theorem fcnSlice_getD (s : Col) (t : Nat) (ht : t < s.length) :
    (fcnSlice s).getD t none =
      if missingAt s t = true ∧ (t = 0 ∨ missingAt s (t - 1) = false)
      then some ((runLen s t : ℚ)) else none := by
  rw [fcnSlice, getD_range_map _ _ _ ht]
  by_cases hm : missingAt s t = true
  · by_cases hstart : t = 0 ∨ missingAt s (t - 1) = false
    · rw [if_pos ⟨hm, groupOf_head_of_start s t ht hm hstart⟩, if_pos ⟨hm, hstart⟩,
        groupOf_length_of_start s t ht hm hstart]
    · push_neg at hstart
      obtain ⟨ht0, hm1⟩ := hstart
      have hm1' : missingAt s (t - 1) = true := by
        cases hmm : missingAt s (t - 1)
        · exact absurd hmm hm1
        · rfl
      rw [if_neg, if_neg]
      · rintro ⟨-, h0 | h0⟩
        · exact ht0 h0
        · exact hm1 h0
      · rintro ⟨-, hhead⟩
        exact groupOf_head_of_not_start s t ht hm (by omega) hm1' hhead
  · rw [if_neg (fun hc => hm hc.1), if_neg (fun hc => hm hc.1)]

theorem find_contiguous_nan_col_getD (c : Col) (t : Nat) (ht : t < c.length) :
    (find_contiguous_nan_col c).getD t none =
      if spanStart c ≤ t ∧ t - spanStart c < (pySlice c).length
      then (fcnSlice (pySlice c)).getD (t - spanStart c) none else none := by
  show ((List.range c.length).map (fun t =>
    if spanStart c ≤ t ∧ t - spanStart c < (pySlice c).length
    then (fcnSlice (pySlice c)).getD (t - spanStart c) none else none)).getD t none = _
  rw [getD_range_map _ _ _ ht]

theorem runLen_pySlice (c : Col) (f l t : Nat)
    (hf : firstValid c = some f) (hl : lastValid c = some l)
    (hft : f < t) (htl : t ≤ l) (_hmt : missingAt c t = true) :
    runLen (pySlice c) (t - f) = runLen c t := by
  obtain ⟨hl1, hl2, hl3⟩ := (lastValid_eq_some_iff c l).mp hl
  have hrun_le : t + runLen c t ≤ l + 1 := by
    by_contra hbig
    have hmiss := runLen_missing c (l - t) t (by omega)
    rw [show t + (l - t) = l by omega, hl2] at hmiss
    exact absurd hmiss (by simp)
  apply runLen_unique
  · intro i hi
    have hiu : t - f + i < l + 1 - f := by omega
    rw [missingAt_pySlice c f l hf hl _ hiu, show f + (t - f + i) = t + i by omega]
    exact runLen_missing c i t hi
  · by_cases hend : t - f + runLen c t < l + 1 - f
    · rw [missingAt_pySlice c f l hf hl _ hend,
        show f + (t - f + runLen c t) = t + runLen c t by omega]
      exact runLen_end_false c t
    · exact missingAt_of_le _ _ (by rw [pySlice_length c f l hf hl]; omega)

theorem find_contiguous_nan_col_spec (c : Col) (f l t : Nat)
    (hf : firstValid c = some f) (hl : lastValid c = some l) (ht : t < c.length) :
    (find_contiguous_nan_col c).getD t none =
      if f ≤ t ∧ t ≤ l ∧ missingAt c t = true ∧ missingAt c (t - 1) = false
      then some ((runLen c t : ℚ)) else none := by
  have hspan := firstValid_le_lastValid c f l hf hl
  obtain ⟨hf1, hf2, hf3⟩ := (firstValid_eq_some_iff c f).mp hf
  obtain ⟨hl1, hl2, hl3⟩ := (lastValid_eq_some_iff c l).mp hl
  have hstart : spanStart c = f := by rw [spanStart, hf]; rfl
  have hslen : (pySlice c).length = l + 1 - f := pySlice_length c f l hf hl
  rw [find_contiguous_nan_col_getD c t ht, hstart, hslen]
  by_cases hin : f ≤ t ∧ t - f < l + 1 - f
  · rw [if_pos hin]
    have hu : t - f < l + 1 - f := hin.2
    rw [fcnSlice_getD (pySlice c) (t - f) (by rw [hslen]; omega)]
    have hm1 : missingAt (pySlice c) (t - f) = missingAt c t := by
      have := missingAt_pySlice c f l hf hl (t - f) hu
      rwa [show f + (t - f) = t by omega] at this
    by_cases hmt : missingAt c t = true
    · have htf : f < t := by
        rcases Nat.lt_or_ge f t with h | h
        · exact h
        · exfalso
          have : t = f := by omega
          rw [this, hf2] at hmt
          exact absurd hmt (by simp)
      have hm2 : missingAt (pySlice c) (t - f - 1) = missingAt c (t - 1) := by
        have := missingAt_pySlice c f l hf hl (t - f - 1) (by omega)
        rwa [show f + (t - f - 1) = t - 1 by omega] at this
      by_cases hprev : missingAt c (t - 1) = false
      · rw [if_pos ⟨by rw [hm1]; exact hmt, Or.inr (by rw [hm2]; exact hprev)⟩,
          if_pos ⟨by omega, by omega, hmt, hprev⟩,
          runLen_pySlice c f l t hf hl htf (by omega) hmt]
      · have hprev' : missingAt c (t - 1) = true := by
          cases hpp : missingAt c (t - 1)
          · exact absurd hpp hprev
          · rfl
        rw [if_neg, if_neg]
        · rintro ⟨-, -, -, hc⟩
          exact hprev hc
        · rintro ⟨-, h0 | h0⟩
          · omega
          · rw [hm2, hprev'] at h0
            exact absurd h0 (by simp)
    · rw [if_neg, if_neg]
      · rintro ⟨-, -, hc, -⟩
        exact hmt hc
      · rintro ⟨hc, -⟩
        rw [hm1] at hc
        exact hmt hc
  · rw [if_neg hin, if_neg]
    rintro ⟨hc1, hc2, -, -⟩
    exact hin ⟨hc1, by omega⟩

/-! ## Summation lemmas: total recorded gap length -/

theorem countP_range_eq_card_filter (p : Nat → Bool) :
    ∀ n, (List.range n).countP p = ((Finset.range n).filter (fun t => p t = true)).card := by
  intro n
  induction n with
  | zero => simp
  | succ n0 ih =>
    rw [List.range_succ, List.countP_append, ih, Finset.range_succ, Finset.filter_insert]
    rw [List.countP_cons, List.countP_nil]
    by_cases hp : p n0 = true
    · rw [if_pos hp, if_pos hp, Finset.card_insert_of_not_mem (by simp)]
    · rw [if_neg hp, if_neg hp]
      simp [hp]

theorem sum_map_eq_sum_getD {β : Type} [AddCommMonoid β] (h : Cell → β) :
    ∀ (xs : List Cell),
      (xs.map h).sum = Finset.sum (Finset.range xs.length) (fun t => h (xs.getD t none)) := by
  intro xs
  induction xs with
  | nil => simp
  | cons x rest ih =>
    rw [List.map_cons, List.sum_cons, ih]
    rw [List.length_cons, Finset.sum_range_succ']
    simp
    exact add_comm _ _

theorem head_exists_for_missing (c : Col) (f l : Nat)
    (hf : firstValid c = some f) (hl : lastValid c = some l) :
    ∀ m, f ≤ m → m ≤ l → missingAt c m = true →
      ∃ t, (f ≤ t ∧ t ≤ l ∧ missingAt c t = true ∧ missingAt c (t - 1) = false) ∧
        t ≤ m ∧ m < t + runLen c t := by
  obtain ⟨hf1, hf2, hf3⟩ := (firstValid_eq_some_iff c f).mp hf
  obtain ⟨hl1, hl2, hl3⟩ := (lastValid_eq_some_iff c l).mp hl
  intro m
  induction m using Nat.strong_induction_on with
  | _ m ih =>
    intro hfm hml hmm
    have hfm' : f < m := by
      rcases Nat.lt_or_ge f m with h | h
      · exact h
      · exfalso
        have : m = f := by omega
        rw [this, hf2] at hmm
        exact absurd hmm (by simp)
    by_cases hprev : missingAt c (m - 1) = false
    · exact ⟨m, ⟨by omega, hml, hmm, hprev⟩, Nat.le_refl m,
        by have := runLen_pos c m (by omega) hmm; omega⟩
    · have hprev' : missingAt c (m - 1) = true := by
        cases hpp : missingAt c (m - 1)
        · exact absurd hpp hprev
        · rfl
      obtain ⟨t, hcond, hle, hlt⟩ := ih (m - 1) (by omega) (by omega) (by omega) hprev'
      refine ⟨t, hcond, by omega, ?_⟩
      by_contra hge
      have hm_eq : m = t + runLen c t := by omega
      have := runLen_end_false c t
      rw [← hm_eq] at this
      rw [this] at hmm
      exact absurd hmm (by simp)

theorem heads_disjoint (c : Col) (f l : Nat) (t t' : Nat)
    (hc : f ≤ t ∧ t ≤ l ∧ missingAt c t = true ∧ missingAt c (t - 1) = false)
    (hc' : f ≤ t' ∧ t' ≤ l ∧ missingAt c t' = true ∧ missingAt c (t' - 1) = false)
    (hne : t ≠ t') :
    Disjoint (Finset.Ico t (t + runLen c t)) (Finset.Ico t' (t' + runLen c t')) := by
  have key : ∀ a b : Nat,
      (f ≤ a ∧ a ≤ l ∧ missingAt c a = true ∧ missingAt c (a - 1) = false) →
      (f ≤ b ∧ b ≤ l ∧ missingAt c b = true ∧ missingAt c (b - 1) = false) →
      a < b → a + runLen c a ≤ b := by
    intro a b hca hcb hab
    by_contra hover
    have hmiss := runLen_missing c (b - 1 - a) a (by omega)
    rw [show a + (b - 1 - a) = b - 1 by omega] at hmiss
    rw [hcb.2.2.2] at hmiss
    exact absurd hmiss (by simp)
  rw [Finset.disjoint_left]
  intro m hm hm'
  rw [Finset.mem_Ico] at hm hm'
  rcases Nat.lt_or_ge t t' with h | h
  · have := key t t' hc hc' h
    omega
  · have ht't : t' < t := by omega
    have := key t' t hc' hc ht't
    omega

theorem missed_eq_biUnion (c : Col) (f l : Nat)
    (hf : firstValid c = some f) (hl : lastValid c = some l) :
    ((Finset.range c.length).filter
        (fun t => f ≤ t ∧ t ≤ l ∧ missingAt c t = true)) =
      ((Finset.range c.length).filter
        (fun t => f ≤ t ∧ t ≤ l ∧ missingAt c t = true ∧ missingAt c (t - 1) = false)).biUnion
        (fun t => Finset.Ico t (t + runLen c t)) := by
  obtain ⟨hl1, hl2, hl3⟩ := (lastValid_eq_some_iff c l).mp hl
  apply Finset.ext
  intro m
  rw [Finset.mem_filter, Finset.mem_biUnion]
  constructor
  · rintro ⟨hmr, hfm, hml, hmm⟩
    obtain ⟨t, hcond, hle, hlt⟩ := head_exists_for_missing c f l hf hl m hfm hml hmm
    refine ⟨t, ?_, ?_⟩
    · rw [Finset.mem_filter, Finset.mem_range]
      exact ⟨by omega, hcond⟩
    · rw [Finset.mem_Ico]
      exact ⟨hle, hlt⟩
  · rintro ⟨t, htmem, hmIco⟩
    rw [Finset.mem_filter, Finset.mem_range] at htmem
    rw [Finset.mem_Ico] at hmIco
    obtain ⟨htr, hcf, hcl, hcm, hcp⟩ := htmem
    have hmm : missingAt c m = true := by
      have := runLen_missing c (m - t) t (by omega)
      rwa [show t + (m - t) = m by omega] at this
    have hrun_le : t + runLen c t ≤ l + 1 := by
      by_contra hbig
      have hmiss := runLen_missing c (l - t) t (by omega)
      rw [show t + (l - t) = l by omega, hl2] at hmiss
      exact absurd hmiss (by simp)
    rw [Finset.mem_range]
    exact ⟨by omega, by omega, by omega, hmm⟩

theorem recorded_sum_nat (c : Col) (f l : Nat)
    (hf : firstValid c = some f) (hl : lastValid c = some l) :
    Finset.sum (Finset.range c.length)
      (fun t => if f ≤ t ∧ t ≤ l ∧ missingAt c t = true ∧ missingAt c (t - 1) = false
        then runLen c t else 0) = missingInSpan c := by
  rw [← Finset.sum_filter]
  have hstep : Finset.sum ((Finset.range c.length).filter
      (fun t => f ≤ t ∧ t ≤ l ∧ missingAt c t = true ∧ missingAt c (t - 1) = false))
      (fun t => runLen c t) =
    Finset.sum ((Finset.range c.length).filter
      (fun t => f ≤ t ∧ t ≤ l ∧ missingAt c t = true ∧ missingAt c (t - 1) = false))
      (fun t => (Finset.Ico t (t + runLen c t)).card) := by
    apply Finset.sum_congr rfl
    intro t _
    rw [Nat.card_Ico]
    omega
  rw [hstep]
  rw [← Finset.card_biUnion]
  · rw [← missed_eq_biUnion c f l hf hl]
    have hmis : missingInSpan c =
        (List.range c.length).countP
          (fun t => decide (f ≤ t) && decide (t ≤ l) && missingAt c t) := by
      rw [missingInSpan, hf, hl]
    rw [hmis, countP_range_eq_card_filter]
    congr 1
    apply Finset.filter_congr
    intro t _
    simp [Bool.and_eq_true, decide_eq_true_eq, and_assoc]
  · intro t ht t' ht' hne
    rw [Finset.mem_filter] at ht ht'
    exact heads_disjoint c f l t t' ht.2 ht'.2 hne

theorem fcn_col_sum (c : Col) (f l : Nat)
    (hf : firstValid c = some f) (hl : lastValid c = some l) :
    ((find_contiguous_nan_col c).map (fun v => v.getD 0)).sum = (missingInSpan c : ℚ) := by
  rw [sum_map_eq_sum_getD]
  have hlen : (find_contiguous_nan_col c).length = c.length := by
    show ((List.range c.length).map _).length = c.length
    rw [List.length_map, List.length_range]
  rw [hlen]
  have hpt : ∀ t ∈ Finset.range c.length,
      ((find_contiguous_nan_col c).getD t none).getD 0 =
        ((if f ≤ t ∧ t ≤ l ∧ missingAt c t = true ∧ missingAt c (t - 1) = false
          then runLen c t else 0 : Nat) : ℚ) := by
    intro t htr
    rw [Finset.mem_range] at htr
    rw [find_contiguous_nan_col_spec c f l t hf hl htr]
    split
    · simp
    · simp
  rw [Finset.sum_congr rfl hpt]
  rw [← Nat.cast_sum]
  rw [recorded_sum_nat c f l hf hl]

/-! ## Lemmas about `nan_by_window` -/

theorem rolling_mean_df_col_ok_val (c : List ℚ) (W : Nat) (hW : 1 ≤ W) (hN : W ≤ c.length) :
    rolling_mean_df_col c (W : Int) = .ok (rmdVal c W) :=
  rolling_mean_df_col_ok c W hW hN

theorem isnaInd_length (c : Col) : (isnaInd c).length = c.length := by
  rw [isnaInd, List.length_map]

theorem isnaInd_sum (s : Col) : (isnaInd s).sum = (s.countP (·.isNone) : ℚ) := by
  induction s with
  | nil => simp [isnaInd]
  | cons x rest ih =>
    rw [isnaInd, List.map_cons, List.sum_cons, List.countP_cons]
    rw [isnaInd] at ih
    cases x with
    | none =>
      simp [ih]
      ring
    | some v => simp [ih]

theorem isnaInd_slice_sum (c : Col) (a W : Nat) :
    (((isnaInd c).drop a).take W).sum = (((c.drop a).take W).countP (·.isNone) : ℚ) := by
  rw [isnaInd, ← List.map_drop, ← List.map_take]
  exact isnaInd_sum ((c.drop a).take W)

theorem rmdVal_getD_lo (c : List ℚ) (W t : Nat) (ht : t < W - 1) :
    (rmdVal c W).getD t none = none := by
  rw [rmdVal, getD_of_lt _ _ _ (by simp [List.length_append, List.length_replicate]; omega)]
  rw [List.getElem_append_left (by simp [List.length_replicate]; omega)]
  rw [List.getElem_replicate]

theorem rmdVal_getD_hi (c : List ℚ) (W t : Nat) (hW : 1 ≤ W) (hN : W ≤ c.length)
    (htW : W - 1 ≤ t) (ht : t < c.length) :
    (rmdVal c W).getD t none = some (((c.drop (t + 1 - W)).take W).sum / W) := by
  have hconv : (convOnes c W).length = c.length + 1 - W := convOnes_length_le c W hN
  have hrep : (List.replicate (W - 1) (none : Cell)).length = W - 1 := by simp
  rw [rmdVal, List.getD_eq_getElem?_getD]
  rw [List.getElem?_append_right (by rw [hrep]; omega)]
  rw [hrep]
  rw [List.getElem?_map]
  rw [show t - (W - 1) = t + 1 - W by omega]
  rw [List.getElem?_eq_getElem (by rw [hconv]; omega)]
  have hval := convOnes_getD c W (t + 1 - W) hN (by omega)
  rw [getD_of_lt _ _ _ (by rw [hconv]; omega)] at hval
  rw [hval]
  rfl

theorem getD_map_optionMap (h : ℚ → ℚ) (b : Col) (t : Nat) :
    (b.map (Option.map h)).getD t none = Option.map h (b.getD t none) := by
  rw [List.getD_eq_getElem?_getD, List.getD_eq_getElem?_getD, List.getElem?_map]
  cases b[t]? with
  | none => rfl
  | some v => rfl

theorem scaled_rmdVal_getD_hi (c : Col) (W t : Nat) (hW : 1 ≤ W) (hWN : W ≤ c.length)
    (htW : W - 1 ≤ t) (ht : t < c.length) :
    (scaleCol (W : Int) (rmdVal (isnaInd c) W)).getD t none =
      some ((windowCount c W t : ℚ)) := by
  rw [scaleCol, getD_map_optionMap]
  rw [rmdVal_getD_hi (isnaInd c) W t hW (by rw [isnaInd_length]; omega)
    htW (by rw [isnaInd_length]; omega)]
  rw [Option.map_some']
  congr 1
  rw [isnaInd_slice_sum c (t + 1 - W) W]
  rw [windowCount]
  have hWQ : (W : ℚ) ≠ 0 := by
    simp
    omega
  push_cast
  field_simp

theorem scaled_rmdVal_getD_lo (c : Col) (W t : Nat) (ht : t < W - 1) :
    (scaleCol (W : Int) (rmdVal (isnaInd c) W)).getD t none = none := by
  rw [scaleCol, getD_map_optionMap, rmdVal_getD_lo (isnaInd c) W t ht]
  rfl

theorem scaleCol_length (d : Int) (b : Col) : (scaleCol d b).length = b.length := by
  rw [scaleCol, List.length_map]

theorem rmdVal_length (c : List ℚ) (W : Nat) (hW : 1 ≤ W) (hN : W ≤ c.length) :
    (rmdVal c W).length = c.length := by
  rw [rmdVal, List.length_append, List.length_replicate, List.length_map,
    convOnes_length_le c W hN]
  omega

theorem maskCol_short (c : Col) (W : Nat) (b : Col) (f l : Nat)
    (hf : firstValid c = some f) (hl : lastValid c = some l) (hspan : l + 1 - f < W) :
    maskCol c W b = List.replicate b.length none := by
  rw [maskCol]
  rw [pySlice_length c f l hf hl]
  rw [if_pos hspan]

theorem maskCol_getD (c : Col) (W : Nat) (b : Col) (f l : Nat)
    (hf : firstValid c = some f) (hl : lastValid c = some l) (hspan : W ≤ l + 1 - f)
    (t : Nat) (ht : t < b.length) :
    (maskCol c W b).getD t none =
      if t ≤ f + W - 1 then none
      else if l < b.length - 1 ∧ l ≤ t then none
      else b.getD t none := by
  have hfl := firstValid_le_lastValid c f l hf hl
  have hstart : spanStart c = f := by rw [spanStart, hf]; rfl
  have hslen : (pySlice c).length = l + 1 - f := pySlice_length c f l hf hl
  rw [maskCol, hstart, hslen, if_neg (by omega)]
  rw [getD_range_map _ _ _ ht]
  have hi1 : f + (l + 1 - f) - 1 = l := by omega
  rw [hi1]

theorem maskCol_getD_nospan (c : Col) (W : Nat) (b : Col)
    (hnone : firstValid c = none) (hcb : b.length = c.length) (hWc : W ≤ c.length)
    (t : Nat) (ht : t < b.length) :
    (maskCol c W b).getD t none =
      if t ≤ W - 1 then none else b.getD t none := by
  have hstart : spanStart c = 0 := by rw [spanStart, hnone]; rfl
  have hslice : pySlice c = c := pySlice_all_missing c hnone
  rw [maskCol, hstart, hslice, if_neg (by omega)]
  rw [getD_range_map _ _ _ ht]
  have hi1 : ¬(0 + c.length - 1 < b.length - 1 ∧ 0 + c.length - 1 ≤ t) := by
    rintro ⟨h1, -⟩
    omega
  rw [if_neg hi1]
  simp only [Nat.zero_add]

theorem getD_map_zip {α β γ : Type} (h : α × β → γ) (xs : List α) (ys : List β)
    (hlen : ys.length = xs.length) (k : Nat) (hk : k < xs.length)
    (da : α) (db : β) (dc : γ) :
    ((xs.zip ys).map h).getD k dc = h (xs.getD k da, ys.getD k db) := by
  have hz : k < (xs.zip ys).length := by rw [List.length_zip]; omega
  rw [getD_of_lt _ _ _ (by rw [List.length_map]; exact hz), getD_of_lt _ _ _ hk,
    getD_of_lt _ _ _ (by omega)]
  rw [List.getElem_map, List.getElem_zip]

theorem nan_by_window_ok (cols : Table) (N W : Nat)
    (huni : ∀ c ∈ cols, c.length = N) (hW : 1 ≤ W) (hWN : W ≤ N) :
    ∃ out, nan_by_window cols (W : Int) = .ok out ∧ out.length = cols.length ∧
      ∀ k, k < cols.length →
        out.getD k [] = maskCol (cols.getD k []) W
          (scaleCol (W : Int) (rmdVal (isnaInd (cols.getD k [])) W)) := by
  have hok : ∀ a ∈ cols.map isnaInd, ∃ b, rolling_mean_df_col a (W : Int) = .ok b := by
    intro a ha
    rw [List.mem_map] at ha
    obtain ⟨c, hc, rfl⟩ := ha
    exact ⟨rmdVal (isnaInd c) W, rolling_mean_df_col_ok_val (isnaInd c) W hW
      (by rw [isnaInd_length, huni c hc]; omega)⟩
  obtain ⟨base, hbase⟩ := exceptMap_exists _ (cols.map isnaInd) hok
  obtain ⟨hbase_len, hbase_getD⟩ := exceptMap_ok _ [] [] (cols.map isnaInd) base hbase
  rw [List.length_map] at hbase_len
  refine ⟨(cols.zip base).map
    (fun p => maskCol p.1 (W : Int).toNat (scaleCol (W : Int) p.2)), ?_, ?_, ?_⟩
  · rw [nan_by_window, rolling_mean_df, hbase]
  · rw [List.length_map, List.length_zip]
    omega
  · intro k hk
    rw [getD_map_zip _ cols base hbase_len k hk [] [] []]
    have hbk := hbase_getD k (by rw [List.length_map]; omega)
    rw [getD_of_lt (cols.map isnaInd) k [] (by rw [List.length_map]; omega)] at hbk
    rw [List.getElem_map] at hbk
    rw [getD_of_lt cols k [] hk] at *
    have hcol : rolling_mean_df_col (isnaInd (cols[k])) (W : Int) =
        .ok (rmdVal (isnaInd (cols[k])) W) :=
      rolling_mean_df_col_ok_val (isnaInd (cols[k])) W hW
        (by rw [isnaInd_length, huni (cols[k]) (by exact List.getElem_mem hk)]; omega)
    rw [hcol] at hbk
    injection hbk with h2
    rw [← h2]
    have htn : ((W : Int)).toNat = W := by omega
    rw [htn]

theorem nbw_col_span (c : Col) (f l W t : Nat)
    (hf : firstValid c = some f) (hl : lastValid c = some l)
    (hW : 1 ≤ W) (hWN : W ≤ c.length) (hspan : W ≤ l + 1 - f) (ht : t < c.length) :
    (maskCol c W (scaleCol (W : Int) (rmdVal (isnaInd c) W))).getD t none =
      if t ≤ f + W - 1 ∨ (l < c.length - 1 ∧ l ≤ t) then none
      else some ((windowCount c W t : ℚ)) := by
  have hfl := firstValid_le_lastValid c f l hf hl
  obtain ⟨hl1, -, -⟩ := (lastValid_eq_some_iff c l).mp hl
  have hblen : (scaleCol (W : Int) (rmdVal (isnaInd c) W)).length = c.length := by
    rw [scaleCol_length, rmdVal_length (isnaInd c) W hW (by rw [isnaInd_length]; omega),
      isnaInd_length]
  rw [maskCol_getD c W _ f l hf hl hspan t (by omega)]
  rw [hblen]
  by_cases h1 : t ≤ f + W - 1
  · rw [if_pos h1, if_pos (Or.inl h1)]
  · rw [if_neg h1]
    by_cases h2 : l < c.length - 1 ∧ l ≤ t
    · rw [if_pos h2, if_pos (Or.inr h2)]
    · rw [if_neg h2, if_neg (by rintro (hc | hc); exact h1 hc; exact h2 hc)]
      exact scaled_rmdVal_getD_hi c W t hW hWN (by omega) ht

theorem nbw_col_short (c : Col) (f l W t : Nat)
    (hf : firstValid c = some f) (hl : lastValid c = some l)
    (hspan : l + 1 - f < W) (ht : t < c.length)
    (hblen : (scaleCol (W : Int) (rmdVal (isnaInd c) W)).length = c.length) :
    (maskCol c W (scaleCol (W : Int) (rmdVal (isnaInd c) W))).getD t none = none := by
  rw [maskCol_short c W _ f l hf hl hspan]
  rw [hblen]
  rw [getD_of_lt _ _ _ (by rw [List.length_replicate]; omega)]
  rw [List.getElem_replicate]

theorem windowCount_allmissing (c : Col) (W t : Nat) (hnone : firstValid c = none)
    (hW : 1 ≤ W) (htW : W - 1 ≤ t) (ht : t < c.length) :
    windowCount c W t = W := by
  have hall := (firstValid_eq_none_iff c).mp hnone
  have hslice_len : ((c.drop (t + 1 - W)).take W).length = W := by
    rw [List.length_take, List.length_drop]
    omega
  have hcnt : ((c.drop (t + 1 - W)).take W).countP (·.isNone) =
      ((c.drop (t + 1 - W)).take W).length := by
    rw [List.countP_eq_length]
    intro a ha
    rw [List.mem_iff_getElem] at ha
    obtain ⟨i, hi, rfl⟩ := ha
    have hi' : i < W := by rw [hslice_len] at hi; exact hi
    have : ((c.drop (t + 1 - W)).take W)[i] = c.get ⟨t + 1 - W + i, by omega⟩ := by
      rw [List.getElem_take, List.getElem_drop, List.get_eq_getElem]
    rw [this]
    have hmiss := hall (t + 1 - W + i) (by omega)
    rw [missingAt, getD_of_lt _ _ _ (by omega)] at hmiss
    simpa using hmiss
  rw [windowCount, hcnt, hslice_len]

theorem nbw_col_nospan (c : Col) (W t : Nat) (hnone : firstValid c = none)
    (hW : 1 ≤ W) (hWN : W ≤ c.length) (ht : t < c.length) :
    (maskCol c W (scaleCol (W : Int) (rmdVal (isnaInd c) W))).getD t none =
      if t ≤ W - 1 then none else some ((W : ℚ)) := by
  have hblen : (scaleCol (W : Int) (rmdVal (isnaInd c) W)).length = c.length := by
    rw [scaleCol_length, rmdVal_length (isnaInd c) W hW (by rw [isnaInd_length]; omega),
      isnaInd_length]
  rw [maskCol_getD_nospan c W _ hnone hblen hWN t (by omega)]
  by_cases h1 : t ≤ W - 1
  · rw [if_pos h1, if_pos h1]
  · rw [if_neg h1, if_neg h1]
    rw [scaled_rmdVal_getD_hi c W t hW hWN (by omega) ht]
    rw [windowCount_allmissing c W t hnone hW (by omega) ht]

/-! ## Lemmas about `nb_valid_windows` and `find_ffill_nan` -/

theorem eqZeroCell_eq_true_iff (v : Cell) : eqZeroCell v = true ↔ v = some 0 := by
  cases v with
  | none => simp [eqZeroCell]
  | some x => simp [eqZeroCell]

theorem geZeroCell_eq_true_iff (v : Cell) : geZeroCell v = true ↔ ∃ x, v = some x ∧ 0 ≤ x := by
  cases v with
  | none => simp [geZeroCell]
  | some x => simp [geZeroCell]

theorem getD_map_cell {γ : Type} (g : Cell → γ) (col : Col) (t : Nat) (hg : γ)
    (hmatch : g none = hg) :
    (col.map g).getD t hg = g (col.getD t none) := by
  rw [List.getD_eq_getElem?_getD, List.getD_eq_getElem?_getD, List.getElem?_map]
  cases col[t]? with
  | none => simpa using hmatch.symm
  | some v => rfl

theorem getD_map_col {γ : Type} (g : Col → γ) (cols : Table) (k : Nat) (hk : k < cols.length)
    (d : γ) :
    (cols.map g).getD k d = g (cols.getD k []) := by
  rw [getD_of_lt _ _ _ (by rw [List.length_map]; omega), getD_of_lt _ _ _ hk,
    List.getElem_map]

theorem nb_valid_windows_mask_eq (cols : Table) (duration : Int) (npf : Table)
    (h : nan_by_window cols duration = .ok npf) :
    nb_valid_windows cols duration none =
      .ok (.boolFrame (npf.map (fun col => col.map eqZeroCell))) := by
  rw [nb_valid_windows, h]

theorem nb_valid_windows_pc_eq (cols : Table) (duration : Int) (npf : Table)
    (h : nan_by_window cols duration = .ok npf) :
    nb_valid_windows cols duration (some "pc") =
      .ok (.pcSeries (npf.map (fun col =>
        if col.countP geZeroCell = 0 then none
        else some ((col.countP eqZeroCell : ℚ) / (col.countP geZeroCell : ℚ) * 100)))) := by
  rw [nb_valid_windows, h]
  rfl

theorem nb_valid_windows_bad_selector (cols : Table) (duration : Int) (m : String)
    (hm : m ≠ "pc") :
    ∃ e, nb_valid_windows cols duration (some m) = .error e := by
  rw [nb_valid_windows]
  cases hnb : nan_by_window cols duration with
  | error e => exact ⟨e, rfl⟩
  | ok npf =>
    refine ⟨.valueError, ?_⟩
    simp [hm]

theorem shift1_getD (c : Col) (t : Nat) (h1 : 1 ≤ t) (ht : t < c.length) :
    (shift1 c).getD t none = c.getD (t - 1) none := by
  have hdl : (c.dropLast).length = c.length - 1 := by rw [List.length_dropLast]
  rw [shift1]
  cases t with
  | zero => omega
  | succ t0 =>
    rw [List.getD_cons_succ]
    rw [getD_of_lt _ _ _ (by omega), getD_of_lt _ _ _ (by omega)]
    rw [List.getElem_dropLast]
    simp

theorem find_ffill_nan_col_getD (c : Col) (t : Nat) (ht : t < c.length) :
    (find_ffill_nan_col c).getD t false =
      eqZeroCell (subCell (c.getD t none) ((shift1 c).getD t none)) := by
  have hsl : (shift1 c).length = c.length := by
    rw [shift1, List.length_cons, List.length_dropLast]
    cases c with
    | nil => simp at ht
    | cons x rest => simp
  have hz : t < (c.zip (shift1 c)).length := by
    rw [List.length_zip]
    omega
  rw [find_ffill_nan_col, getD_of_lt _ _ _ (by rw [List.length_map]; exact hz)]
  rw [List.getElem_map, List.getElem_zip]
  rw [getD_of_lt _ _ _ ht, getD_of_lt _ _ _ (by omega)]

/-! ## Counting missing cells inside the observed span -/

theorem countP_eq_countP_range (p : Cell → Bool) :
    ∀ (xs : List Cell),
      xs.countP p = (List.range xs.length).countP (fun i => p (xs.getD i none)) := by
  intro xs
  induction xs with
  | nil => simp
  | cons x rest ih =>
    rw [List.countP_cons, List.length_cons, List.range_succ_eq_map, List.countP_cons]
    rw [List.countP_map]
    have hcomp : ((fun i => p ((x :: rest).getD i none)) ∘ Nat.succ) =
        (fun i => p (rest.getD i none)) := by
      funext i
      simp [Function.comp, List.getD_cons_succ]
    rw [hcomp, ← ih]
    simp [List.getD_cons_zero]

theorem countNone_pySlice (c : Col) (f l : Nat)
    (hf : firstValid c = some f) (hl : lastValid c = some l) :
    (pySlice c).countP (·.isNone) = missingInSpan c := by
  obtain ⟨hf1, hf2, hf3⟩ := (firstValid_eq_some_iff c f).mp hf
  obtain ⟨hl1, hl2, hl3⟩ := (lastValid_eq_some_iff c l).mp hl
  have hfl := firstValid_le_lastValid c f l hf hl
  have hslen : (pySlice c).length = l + 1 - f := pySlice_length c f l hf hl
  rw [countP_eq_countP_range, hslen]
  have hmis : missingInSpan c =
      (List.range c.length).countP
        (fun t => decide (f ≤ t) && decide (t ≤ l) && missingAt c t) := by
    rw [missingInSpan, hf, hl]
  rw [hmis]
  have hcongr : ∀ u ∈ List.range (l + 1 - f),
      (fun u => ((pySlice c).getD u none).isNone) u = (fun u => missingAt c (f + u)) u := by
    intro u hu
    rw [List.mem_range] at hu
    show ((pySlice c).getD u none).isNone = missingAt c (f + u)
    rw [pySlice_getD c f l hf hl u hu none, missingAt]
    rw [getD_of_lt _ _ _ (by omega), getD_of_lt _ _ _ (by omega)]
  rw [List.countP_eq_length_filter, List.countP_eq_length_filter,
    List.filter_congr hcongr]
  rw [← List.countP_eq_length_filter, ← List.countP_eq_length_filter]
  rw [countP_range_eq_card_filter, countP_range_eq_card_filter]
  apply Finset.card_nbij' (fun u => f + u) (fun t => t - f)
  · intro u hu
    rw [Finset.mem_filter, Finset.mem_range] at hu ⊢
    refine ⟨by omega, ?_⟩
    rw [Bool.and_eq_true, Bool.and_eq_true]
    exact ⟨⟨by simp, by simp; omega⟩, hu.2⟩
  · intro t ht
    rw [Finset.mem_filter, Finset.mem_range] at ht ⊢
    obtain ⟨htr, hcond⟩ := ht
    rw [Bool.and_eq_true, Bool.and_eq_true, decide_eq_true_eq, decide_eq_true_eq] at hcond
    obtain ⟨⟨hc1, hc2⟩, hc3⟩ := hcond
    refine ⟨by omega, ?_⟩
    rw [show f + (t - f) = t by omega]
    exact hc3
  · intro u hu
    omega
  · intro t ht
    rw [Finset.mem_filter] at ht
    have := ht.2
    rw [Bool.and_eq_true, Bool.and_eq_true, decide_eq_true_eq, decide_eq_true_eq] at this
    omega

/-! ## Claim theorems -/

/-- Claim C10: `find_ffill_nan` returns a boolean table that is `true` at
`(t, k)` exactly when the value at row `t` of column `k` equals the value
at the immediately preceding row (row-position adjacency); any comparison
involving a missing marker yields `false` (`specRepeat` is the
specification's wording, including that a missing value never equals
another missing value), and the first row is `false` for every column. -/
theorem C10_find_ffill_nan (cols : Table) (k : Nat) (c : Col)
    (hk : k < cols.length) (hc : cols.getD k [] = c) (t : Nat) (ht : t < c.length) :
    ((find_ffill_nan cols).getD k []).getD t false = specRepeat c t := by
  rw [find_ffill_nan, getD_map_col _ cols k hk, hc]
  rw [find_ffill_nan_col_getD c t ht]
  by_cases h0 : t = 0
  · subst h0
    have hs : (shift1 c).getD 0 none = none := by rw [shift1]; rfl
    rw [hs]
    cases hv : c.getD 0 none <;> simp [specRepeat, subCell, eqZeroCell]
  · have h1 : 1 ≤ t := by omega
    rw [shift1_getD c t h1 ht]
    rw [specRepeat, if_neg h0]
    cases hv : c.getD t none with
    | none => cases hw : c.getD (t - 1) none <;> rfl
    | some a =>
      cases hw : c.getD (t - 1) none with
      | none => rfl
      | some b =>
        show eqZeroCell (some (a - b)) = decide (a = b)
        simp [eqZeroCell, sub_eq_zero]

/-- Witness for C10 at a concrete repeated value. -/
theorem C10_find_ffill_nan_witness :
    (0 < 1 ∧ 1 < 2) ∧
    ((find_ffill_nan [[some (5 : ℚ), some 5]]).getD 0 []).getD 1 false =
      specRepeat [some (5 : ℚ), some 5] 1 :=
  ⟨⟨by decide, by decide⟩,
    C10_find_ffill_nan [[some 5, some 5]] 0 [some 5, some 5] (by decide) (by decide)
      1 (by decide)⟩

/-- Claim C6 as stated is false: for a one-point column and window length
2, `numpy.convolve(…, mode="valid")` produces `W - N + 1 = 2` values, and
assigning them to the empty output index raises a `ValueError`; the call
fails instead of yielding an empty result. -/
theorem C6_counterexample :
    rolling_mean_ts [(0 : ℚ)] 2 = .error .valueError ∧
    Except.error PyErr.valueError ≠ (Except.ok [] : Except PyErr (List ℚ)) := by
  decide

/-- Claim C6 (amended): requesting a window length `W` greater than the
column length makes `rolling_mean_ts` and `rolling_mean_df` fail with a
`ValueError` (the `W - N + 1` valid-mode convolution values cannot be
assigned to the `max(N - W + 1, 0)` output rows); no empty result is
returned and no all-missing column is produced. -/
theorem C6_window_exceeds_length_raises (ts : List ℚ) (W : Int)
    (h : (ts.length : Int) < W) :
    rolling_mean_ts ts W = .error .valueError ∧
    rolling_mean_df [ts] W = .error .valueError := by
  refine ⟨rolling_mean_ts_err_of_short ts W h, ?_⟩
  rw [rolling_mean_df]
  exact exceptMap_err_head _ ts [] .valueError (rolling_mean_df_col_err_of_short ts W h)

/-- Witness for C6 (amended) at `N = 1`, `W = 3`. -/
theorem C6_window_exceeds_length_raises_witness :
    (([(0 : ℚ)].length : Int) < 3) ∧
    (rolling_mean_ts [(0 : ℚ)] 3 = .error .valueError ∧
      rolling_mean_df [[(0 : ℚ)]] 3 = .error .valueError) :=
  ⟨by decide, C6_window_exceeds_length_raises [(0 : ℚ)] 3 (by decide)⟩

/-- Claim C9 as stated is false in one corner: `rolling_mean_ts` with
window length `0` fails with a `ZeroDivisionError` (from
`1/len(numpy.ones(0))`), which is not an invalid-argument (`ValueError`)
error; every other listed case does raise a `ValueError`. -/
theorem C9_counterexample :
    rolling_mean_ts [(0 : ℚ)] 0 = .error .zeroDivisionError ∧
    PyErr.zeroDivisionError ≠ PyErr.valueError := by
  decide

/-- Claim C9 (amended): an unknown aggregation-mode selector makes
`nb_valid_windows` fail with an error, and a non-positive window length
makes every windowed function fail with an error that terminates the
call rather than producing a value — a `ValueError` in each case, except
`rolling_mean_ts` with window length exactly `0`, which fails with a
`ZeroDivisionError`. -/
theorem C9_invalid_arguments_raise (cols : Table) (dfcols : List (List ℚ))
    (ts : List ℚ) (duration : Int) (m : String) :
    (m ≠ "pc" → ∃ e, nb_valid_windows cols duration (some m) = .error e) ∧
    (duration ≤ 0 →
      rolling_mean_ts ts duration =
        .error (if duration = 0 then PyErr.zeroDivisionError else PyErr.valueError) ∧
      (dfcols ≠ [] → rolling_mean_df dfcols duration = .error .valueError) ∧
      (cols ≠ [] → nan_by_window cols duration = .error .valueError ∧
        ∀ m2 : Option String, nb_valid_windows cols duration m2 = .error .valueError)) := by
  constructor
  · exact fun hm => nb_valid_windows_bad_selector cols duration m hm
  · intro hdur
    refine ⟨?_, ?_, ?_⟩
    · by_cases h0 : duration = 0
      · subst h0
        rw [if_pos rfl]
        rw [rolling_mean_ts, if_neg (by omega), if_pos rfl]
      · rw [if_neg h0]
        rw [rolling_mean_ts, if_pos (by omega)]
    · intro hne
      cases dfcols with
      | nil => exact absurd rfl hne
      | cons a rest =>
        rw [rolling_mean_df]
        exact exceptMap_err_head _ a rest .valueError
          (rolling_mean_df_col_err_of_nonpos a duration hdur)
    · intro hne
      obtain ⟨a, rest, hmap⟩ : ∃ a rest, cols.map isnaInd = a :: rest := by
        cases cols with
        | nil => exact absurd rfl hne
        | cons c0 cs => exact ⟨isnaInd c0, cs.map isnaInd, rfl⟩
      have hdf : rolling_mean_df (cols.map isnaInd) duration = .error .valueError := by
        rw [rolling_mean_df, hmap]
        exact exceptMap_err_head _ a rest .valueError
          (rolling_mean_df_col_err_of_nonpos a duration hdur)
      have hnbw : nan_by_window cols duration = .error .valueError := by
        rw [nan_by_window, hdf]
      refine ⟨hnbw, ?_⟩
      intro m2
      rw [nb_valid_windows, hnbw]

/-- Witness for C9 (amended) at selector `"bogus"` and window length `-1`. -/
theorem C9_invalid_arguments_raise_witness :
    ("bogus" ≠ "pc") ∧ ((-1 : Int) ≤ 0) ∧
    (∃ e, nb_valid_windows [[some (0 : ℚ)]] 1 (some "bogus") = .error e) ∧
    rolling_mean_ts [(0 : ℚ)] (-1) =
      .error (if (-1 : Int) = 0 then PyErr.zeroDivisionError else PyErr.valueError) ∧
    nan_by_window [[some (0 : ℚ)]] (-1) = .error .valueError := by
  have h1 := C9_invalid_arguments_raise [[some (0 : ℚ)]] [[0]] [0] 1 "bogus"
  have h2 := C9_invalid_arguments_raise [[some (0 : ℚ)]] [[0]] [0] (-1) "bogus"
  exact ⟨by decide, by decide, h1.1 (by decide), (h2.2 (by decide)).1,
    ((h2.2 (by decide)).2.2 (by decide)).1⟩

/-- Claim C8: for every column whose ObservedSpan is non-empty, `pc_nan`
returns the count of missing entries within the span divided by the span
length, times 100; the value lies in `[0, 100]`, and a column with no
missing value in its span yields `0`. -/
theorem C8_pc_nan (cols : Table) (k : Nat) (c : Col) (f l : Nat)
    (hk : k < cols.length) (hc : cols.getD k [] = c)
    (hf : firstValid c = some f) (hl : lastValid c = some l) :
    ∃ x : ℚ, (pc_nan cols).getD k none = some x ∧
      x = (missingInSpan c : ℚ) / ((l + 1 - f : Nat) : ℚ) * 100 ∧
      0 ≤ x ∧ x ≤ 100 ∧ (missingInSpan c = 0 → x = 0) := by
  have hfl := firstValid_le_lastValid c f l hf hl
  obtain ⟨hl1, -, -⟩ := (lastValid_eq_some_iff c l).mp hl
  have hslen : (pySlice c).length = l + 1 - f := pySlice_length c f l hf hl
  have hval : pc_nan_col c =
      some ((missingInSpan c : ℚ) / ((l + 1 - f : Nat) : ℚ) * 100) := by
    show (if (pySlice c).length = 0 then none
      else some (((pySlice c).countP (·.isNone) : ℚ) / ((pySlice c).length : ℚ) * 100)) = _
    rw [if_neg (by omega), countNone_pySlice c f l hf hl, hslen]
  have hmle : missingInSpan c ≤ l + 1 - f := by
    rw [← countNone_pySlice c f l hf hl, ← hslen]
    exact List.countP_le_length _
  have hLpos : (0 : ℚ) < ((l + 1 - f : Nat) : ℚ) := by
    have : 1 ≤ l + 1 - f := by omega
    exact_mod_cast by omega
  refine ⟨_, by rw [pc_nan, getD_map_col _ cols k hk, hc, hval], rfl, ?_, ?_, ?_⟩
  · apply mul_nonneg
    · apply div_nonneg
      · exact_mod_cast Nat.zero_le _
      · exact le_of_lt hLpos
    · norm_num
  · have hdiv : (missingInSpan c : ℚ) / ((l + 1 - f : Nat) : ℚ) ≤ 1 := by
      rw [div_le_one hLpos]
      exact_mod_cast hmle
    calc (missingInSpan c : ℚ) / ((l + 1 - f : Nat) : ℚ) * 100
        ≤ 1 * 100 := by
          apply mul_le_mul_of_nonneg_right hdiv
          norm_num
      _ = 100 := by norm_num
  · intro hzero
    rw [hzero]
    norm_num

/-- Witness for C8: a 3-point span with one missing value yields 100/3. -/
theorem C8_pc_nan_witness :
    firstValid [some (1 : ℚ), none, some 2] = some 0 ∧
    lastValid [some (1 : ℚ), none, some 2] = some 2 ∧
    ∃ x : ℚ, (pc_nan [[some (1 : ℚ), none, some 2]]).getD 0 none = some x ∧
      x = (missingInSpan [some (1 : ℚ), none, some 2] : ℚ) / ((2 + 1 - 0 : Nat) : ℚ) * 100 ∧
      0 ≤ x ∧ x ≤ 100 ∧ (missingInSpan [some (1 : ℚ), none, some 2] = 0 → x = 0) :=
  ⟨by decide, by decide,
    C8_pc_nan [[some 1, none, some 2]] 0 [some 1, none, some 2] 0 2
      (by decide) (by decide) (by decide) (by decide)⟩

/-- Claim C4: relative to `nan_by_window`'s output, `nb_valid_windows`
with `modif_output = None` returns the boolean frame that is `true`
exactly where the windowed counter equals `0` (a missing counter reads
as `false`, it is not propagated), and with `modif_output = "pc"` it
returns, per column, 100 times the count of zero-missing windows divided
by the count of windows with a defined, non-negative count. -/
theorem C4_nb_valid_windows (cols : Table) (duration : Int) (npf : Table)
    (h : nan_by_window cols duration = .ok npf) :
    (nb_valid_windows cols duration none =
        .ok (.boolFrame (npf.map (fun col => col.map eqZeroCell))) ∧
      ∀ k t, k < npf.length →
        (((npf.map (fun col => col.map eqZeroCell)).getD k []).getD t false = true ↔
          (npf.getD k []).getD t none = some 0)) ∧
    (nb_valid_windows cols duration (some "pc") =
        .ok (.pcSeries (npf.map (fun col =>
          if col.countP geZeroCell = 0 then none
          else some ((col.countP eqZeroCell : ℚ) / (col.countP geZeroCell : ℚ) * 100)))) ∧
      ∀ k, k < npf.length → (npf.getD k []).countP geZeroCell ≠ 0 →
        (npf.map (fun col =>
          if col.countP geZeroCell = 0 then none
          else some ((col.countP eqZeroCell : ℚ) / (col.countP geZeroCell : ℚ) * 100))).getD
            k none =
          some (100 * ((npf.getD k []).countP eqZeroCell : ℚ) /
            ((npf.getD k []).countP geZeroCell : ℚ))) := by
  constructor
  · refine ⟨nb_valid_windows_mask_eq cols duration npf h, ?_⟩
    intro k t hk
    rw [getD_map_col _ npf k hk]
    rw [getD_map_cell eqZeroCell _ t false rfl]
    exact eqZeroCell_eq_true_iff _
  · refine ⟨nb_valid_windows_pc_eq cols duration npf h, ?_⟩
    intro k hk hden
    rw [getD_map_col _ npf k hk]
    rw [if_neg hden]
    congr 1
    ring

/-- Witness for C4 on the table `[[0, 0]]` with window length 1. -/
theorem C4_nb_valid_windows_witness :
    nan_by_window [[some (0 : ℚ), some 0]] 1 = .ok [[none, some 0]] ∧
    nb_valid_windows [[some (0 : ℚ), some 0]] 1 none =
      .ok (.boolFrame (([[none, some (0 : ℚ)]] : Table).map
        (fun col => col.map eqZeroCell))) ∧
    (((([[none, some (0 : ℚ)]] : Table).map
        (fun col => col.map eqZeroCell)).getD 0 []).getD 1 false = true ↔
      (([[none, some (0 : ℚ)]] : Table).getD 0 []).getD 1 none = some 0) ∧
    nb_valid_windows [[some (0 : ℚ), some 0]] 1 (some "pc") =
      .ok (.pcSeries (([[none, some (0 : ℚ)]] : Table).map (fun col =>
        if col.countP geZeroCell = 0 then none
        else some ((col.countP eqZeroCell : ℚ) / (col.countP geZeroCell : ℚ) * 100)))) ∧
    (([[none, some (0 : ℚ)]] : Table).map (fun col =>
        if col.countP geZeroCell = 0 then none
        else some ((col.countP eqZeroCell : ℚ) /
          (col.countP geZeroCell : ℚ) * 100))).getD 0 none =
      some (100 * ((([[none, some (0 : ℚ)]] : Table).getD 0 []).countP eqZeroCell : ℚ) /
        ((([[none, some (0 : ℚ)]] : Table).getD 0 []).countP geZeroCell : ℚ)) := by
  have h0 : nan_by_window [[some (0 : ℚ), some 0]] 1 = .ok [[none, some 0]] := by
    norm_num [nan_by_window, rolling_mean_df, exceptMap, rolling_mean_df_col, convOnes,
      isnaInd, scaleCol, maskCol, pySlice, firstValid, lastValid, spanStart,
      List.range_succ]
    all_goals (intro h; exact absurd h (by simp))
  have h := C4_nb_valid_windows [[some 0, some 0]] 1 [[none, some 0]] h0
  exact ⟨h0, h.1.1, h.1.2 0 1 (by decide), h.2.1, h.2.2 0 (by decide) (by decide)⟩

/-- Claim C2 as stated is false for a column with no observed value: its
ObservedSpan is empty, so every position is outside the span and must
hold the missing marker, but the source slices `s[None:None]` (the whole
column) and records the full run length at the first position. -/
theorem C2_counterexample :
    find_contiguous_nan [[(none : Cell)]] = [[some 1]] ∧
    firstValid [(none : Cell)] = none ∧
    (some (1 : ℚ) : Cell) ≠ none := by
  decide

/-- Claim C2 (amended): for every column with at least one observed
value, positions outside the ObservedSpan hold the missing marker,
positions inside the span that are not the start of a maximal missing
run hold the missing marker, and each position starting a maximal run
holds that run's length (so an isolated missing value yields 1 at its
own position and a run of three yields 3 at its first position). -/
theorem C2_find_contiguous_nan_runs (cols : Table) (k : Nat) (c : Col) (f l : Nat)
    (hk : k < cols.length) (hc : cols.getD k [] = c)
    (hf : firstValid c = some f) (hl : lastValid c = some l)
    (t : Nat) (ht : t < c.length) :
    ((find_contiguous_nan cols).getD k []).getD t none =
      if f ≤ t ∧ t ≤ l ∧ missingAt c t = true ∧ missingAt c (t - 1) = false
      then some ((runLen c t : ℚ)) else none := by
  rw [find_contiguous_nan, getD_map_col _ cols k hk, hc]
  exact find_contiguous_nan_col_spec c f l t hf hl ht

/-- Witness for C2 at the start of a two-long run. -/
theorem C2_find_contiguous_nan_runs_witness :
    (firstValid [some (0 : ℚ), none, none, some 1] = some 0 ∧
      lastValid [some (0 : ℚ), none, none, some 1] = some 3) ∧
    ((find_contiguous_nan [[some (0 : ℚ), none, none, some 1]]).getD 0 []).getD 1 none =
      (if 0 ≤ 1 ∧ 1 ≤ 3 ∧ missingAt [some (0 : ℚ), none, none, some 1] 1 = true ∧
          missingAt [some (0 : ℚ), none, none, some 1] (1 - 1) = false
       then some ((runLen [some (0 : ℚ), none, none, some 1] 1 : ℚ)) else none) :=
  ⟨⟨by decide, by decide⟩,
    C2_find_contiguous_nan_runs [[some 0, none, none, some 1]] 0
      [some 0, none, none, some 1] 0 3 (by decide) (by decide) (by decide) (by decide)
      1 (by decide)⟩

/-- Claim C7 as stated is false for a column with no observed value: its
ObservedSpan is empty (no missing entry lies within it), yet the source
records the whole column as one run, so the recorded sum exceeds the
count. -/
theorem C7_counterexample :
    (((find_contiguous_nan [[(none : Cell)]]).getD 0 []).map (fun v => v.getD 0)).sum =
      (1 : ℚ) ∧
    missingInSpan [(none : Cell)] = 0 ∧ (1 : ℚ) ≠ 0 := by
  refine ⟨?_, by decide, by norm_num⟩
  norm_num [find_contiguous_nan, find_contiguous_nan_col, fcnSlice, groupOf, cntValid,
    missingAt, pySlice, firstValid, lastValid, spanStart, List.range_succ]

/-- Claim C7 (amended): for every column with at least one observed
value, the sum of the run lengths recorded by `find_contiguous_nan`
equals the number of missing entries within the column's ObservedSpan. -/
theorem C7_gap_lengths_sum (cols : Table) (k : Nat) (c : Col) (f l : Nat)
    (hk : k < cols.length) (hc : cols.getD k [] = c)
    (hf : firstValid c = some f) (hl : lastValid c = some l) :
    (((find_contiguous_nan cols).getD k []).map (fun v => v.getD 0)).sum =
      (missingInSpan c : ℚ) := by
  rw [find_contiguous_nan, getD_map_col _ cols k hk, hc]
  exact fcn_col_sum c f l hf hl

/-- Witness for C7: two runs of lengths 2 and 1 sum to the 3 missing
entries of the span. -/
theorem C7_gap_lengths_sum_witness :
    (firstValid [some (0 : ℚ), none, none, some 1, none, some 2] = some 0 ∧
      lastValid [some (0 : ℚ), none, none, some 1, none, some 2] = some 5) ∧
    (((find_contiguous_nan [[some (0 : ℚ), none, none, some 1, none, some 2]]).getD 0
        []).map (fun v => v.getD 0)).sum =
      (missingInSpan [some (0 : ℚ), none, none, some 1, none, some 2] : ℚ) :=
  ⟨⟨by decide, by decide⟩,
    C7_gap_lengths_sum [[some 0, none, none, some 1, none, some 2]] 0
      [some 0, none, none, some 1, none, some 2] 0 5
      (by decide) (by decide) (by decide) (by decide)⟩

/-- Claim C5: for `1 ≤ W ≤ N`, `rolling_mean_ts` returns the length
`N - W + 1` sequence of window means (output `i` is the mean of inputs
`i .. i+W-1`), and `rolling_mean_df` applies this column by column with
output row `j + W - 1` holding the mean of rows `j .. j+W-1` and the
first `W - 1` rows missing. -/
theorem C5_rolling_mean (ts : List ℚ) (cols : List (List ℚ)) (N W : Nat)
    (hW : 1 ≤ W) (hNts : W ≤ ts.length)
    (huni : ∀ c ∈ cols, c.length = N) (hWN : W ≤ N) :
    (∃ out, rolling_mean_ts ts (W : Int) = .ok out ∧ out.length = ts.length - W + 1 ∧
      ∀ i, i < ts.length - W + 1 →
        out.getD i 0 = (Finset.sum (Finset.range W) (fun j => ts.getD (i + j) 0)) / W) ∧
    (∃ outdf, rolling_mean_df cols (W : Int) = .ok outdf ∧ outdf.length = cols.length ∧
      ∀ k, k < cols.length → (outdf.getD k []).length = N ∧
        (∀ j, j < W - 1 → (outdf.getD k []).getD j none = none) ∧
        ∀ j, j + W ≤ N → (outdf.getD k []).getD (j + W - 1) none =
          some ((Finset.sum (Finset.range W) (fun i => (cols.getD k []).getD (j + i) 0)) / W)) := by
  constructor
  · refine ⟨convOnes ts W, rolling_mean_ts_ok ts W hW hNts, ?_, ?_⟩
    · rw [convOnes_length_le ts W hNts]
      omega
    · intro i hi
      rw [convOnes_getD ts W i hNts (by omega)]
      rw [sum_slice ts i W (by omega)]
  · have hok : ∀ a ∈ cols, ∃ b, rolling_mean_df_col a (W : Int) = .ok b := by
      intro a ha
      exact ⟨rmdVal a W, rolling_mean_df_col_ok_val a W hW (by rw [huni a ha]; omega)⟩
    obtain ⟨outdf, hdf⟩ := exceptMap_exists (rolling_mean_df_col · (W : Int)) cols hok
    obtain ⟨hlen, hget⟩ := exceptMap_ok (rolling_mean_df_col · (W : Int)) [] [] cols outdf hdf
    refine ⟨outdf, ?_, by omega, ?_⟩
    · rw [rolling_mean_df]
      exact hdf
    · intro k hk
      have hmem : cols.getD k [] ∈ cols := by
        rw [getD_of_lt cols k [] hk]
        exact List.getElem_mem hk
      have hcl : (cols.getD k []).length = N := huni _ hmem
      have hco : rolling_mean_df_col (cols.getD k []) (W : Int) =
          .ok (rmdVal (cols.getD k []) W) :=
        rolling_mean_df_col_ok_val _ W hW (by omega)
      have hcolk := hget k hk
      rw [hco] at hcolk
      injection hcolk with h2
      rw [← h2]
      refine ⟨?_, ?_, ?_⟩
      · rw [rmdVal_length _ W hW (by omega)]
        exact hcl
      · intro j hj
        exact rmdVal_getD_lo _ W j hj
      · intro j hj
        rw [rmdVal_getD_hi (cols.getD k []) W (j + W - 1) hW (by omega) (by omega)
          (by omega)]
        rw [show j + W - 1 + 1 - W = j by omega]
        rw [sum_slice _ j W (by omega)]

/-- Witness for C5 with `ts = [1, 2, 3]`, one column `[1, 2, 3, 4]`, `W = 2`. -/
theorem C5_rolling_mean_witness :
    rolling_mean_ts [(1 : ℚ), 2, 3] ((2 : Nat) : Int) = .ok [3 / 2, 5 / 2] ∧
    (3 : ℚ) / 2 = (Finset.sum (Finset.range 2) (fun j => [(1 : ℚ), 2, 3].getD (0 + j) 0)) / 2 ∧
    rolling_mean_df [[(1 : ℚ), 2, 3, 4]] ((2 : Nat) : Int) =
      .ok [[none, some (3 / 2), some (5 / 2), some (7 / 2)]] ∧
    (([[none, some ((3 : ℚ) / 2), some (5 / 2), some (7 / 2)]] : Table).getD 0 []).getD
        (1 + 2 - 1) none =
      some ((Finset.sum (Finset.range 2)
        (fun i => ([[(1 : ℚ), 2, 3, 4]].getD 0 []).getD (1 + i) 0)) / 2) := by
  have hts0 : rolling_mean_ts [(1 : ℚ), 2, 3] ((2 : Nat) : Int) = .ok [3 / 2, 5 / 2] := by
    norm_num [rolling_mean_ts, convOnes, List.range_succ, show ((2 : Int)).toNat = 2 from rfl]
  have hdf0 : rolling_mean_df [[(1 : ℚ), 2, 3, 4]] ((2 : Nat) : Int) =
      .ok [[none, some (3 / 2), some (5 / 2), some (7 / 2)]] := by
    norm_num [rolling_mean_df, exceptMap, rolling_mean_df_col, convOnes, List.range_succ,
      List.replicate, show ((2 : Int)).toNat = 2 from rfl]
  obtain ⟨h1, h2⟩ := C5_rolling_mean [(1 : ℚ), 2, 3] [[(1 : ℚ), 2, 3, 4]] 4 2 (by omega)
    (by norm_num) (by intro c hc; rw [List.mem_singleton] at hc; subst hc; rfl) (by omega)
  obtain ⟨out, hout, hol, hov⟩ := h1
  obtain ⟨outdf, houtdf, hodl, hodv⟩ := h2
  have hpin1 : (Except.ok out : Except PyErr (List ℚ)) = Except.ok [3 / 2, 5 / 2] := by
    rw [← hout, hts0]
  injection hpin1 with he1
  subst he1
  have hpin2 : (Except.ok outdf : Except PyErr Table) =
      Except.ok [[none, some (3 / 2), some (5 / 2), some (7 / 2)]] := by
    rw [← houtdf, hdf0]
  injection hpin2 with he2
  subst he2
  exact ⟨hts0, hov 0 (by decide), hdf0, (hodv 0 (by decide)).2.2 1 (by omega)⟩

/-- Claim C1 as stated is false at the window boundary: with the column
`[0, 0]` and `W = 1` the full window lies within the ObservedSpan at
every row, so the claim predicts a count at both rows, but the source
masks with the inclusive label slice `output.loc[index[0]:i0]` and blanks
the first valid window position. -/
theorem C1_counterexample :
    nan_by_window [[some (0 : ℚ), some 0]] 1 = .ok [[none, some 0]] ∧
    specNanByWindowCol [some (0 : ℚ), some 0] 1 = [some 0, some 0] ∧
    ([none, some (0 : ℚ)] : Col) ≠ [some 0, some 0] := by
  refine ⟨?_, ?_, by decide⟩
  · norm_num [nan_by_window, rolling_mean_df, exceptMap, rolling_mean_df_col, convOnes,
      isnaInd, scaleCol, maskCol, pySlice, firstValid, lastValid, spanStart,
      List.range_succ]
    all_goals (intro h; exact absurd h (by simp))
  · norm_num [specNanByWindowCol, windowCount, firstValid, lastValid, List.range_succ]

/-- Claim C1 (amended): for `1 ≤ W ≤ N`, `nan_by_window` returns a table
aligned to the original index in which a column with ObservedSpan
`[f, l]` of length at least `W` holds the trailing-window missing count
exactly at the rows strictly after `f + W - 1` and, when `l` is not the
final row, strictly before `l` (the inclusive masking slices blank row
`f + W - 1` and rows `l` onward; when `l` is the final row the count is
kept through the last row), with the missing marker everywhere else; a
column with a non-empty span shorter than `W` is entirely missing; a
column with no observed value keeps the raw count `W` from row `W`
onward, its first `W` rows missing. -/
theorem C1_nan_by_window_boundaries (cols : Table) (N W : Nat)
    (huni : ∀ c ∈ cols, c.length = N) (hW : 1 ≤ W) (hWN : W ≤ N) :
    ∃ out, nan_by_window cols (W : Int) = .ok out ∧ out.length = cols.length ∧
      (∀ k f l, k < cols.length → firstValid (cols.getD k []) = some f →
        lastValid (cols.getD k []) = some l → W ≤ l + 1 - f → ∀ t, t < N →
          (out.getD k []).getD t none =
            if t ≤ f + W - 1 ∨ (l < N - 1 ∧ l ≤ t) then none
            else some ((windowCount (cols.getD k []) W t : ℚ))) ∧
      (∀ k f l, k < cols.length → firstValid (cols.getD k []) = some f →
        lastValid (cols.getD k []) = some l → l + 1 - f < W → ∀ t, t < N →
          (out.getD k []).getD t none = none) ∧
      (∀ k, k < cols.length → firstValid (cols.getD k []) = none → ∀ t, t < N →
          (out.getD k []).getD t none = if t ≤ W - 1 then none else some ((W : ℚ))) := by
  obtain ⟨out, hout, hlen, hcol⟩ := nan_by_window_ok cols N W huni hW hWN
  have hmem : ∀ k, k < cols.length → (cols.getD k []).length = N := by
    intro k hk
    apply huni
    rw [getD_of_lt cols k [] hk]
    exact List.getElem_mem hk
  refine ⟨out, hout, hlen, ?_, ?_, ?_⟩
  · intro k f l hk hf hl hspan t ht
    rw [hcol k hk]
    rw [show N - 1 = (cols.getD k []).length - 1 by rw [hmem k hk]]
    exact nbw_col_span (cols.getD k []) f l W t hf hl hW (by rw [hmem k hk]; omega) hspan
      (by rw [hmem k hk]; omega)
  · intro k f l hk hf hl hshort t ht
    rw [hcol k hk]
    have hblen : (scaleCol (W : Int) (rmdVal (isnaInd (cols.getD k [])) W)).length =
        (cols.getD k []).length := by
      rw [scaleCol_length, rmdVal_length _ W hW (by rw [isnaInd_length, hmem k hk]; omega),
        isnaInd_length]
    exact nbw_col_short (cols.getD k []) f l W t hf hl hshort
      (by rw [hmem k hk]; omega) hblen
  · intro k hk hnone t ht
    rw [hcol k hk]
    exact nbw_col_nospan (cols.getD k []) W t hnone hW (by rw [hmem k hk]; omega)
      (by rw [hmem k hk]; omega)

/-- Witness for C1 (amended): column `[1, NaN, 2, 3]`, `W = 2`; row 2
survives the masking and carries count 1. -/
theorem C1_nan_by_window_boundaries_witness :
    nan_by_window [[some (1 : ℚ), none, some 2, some 3]] ((2 : Nat) : Int) =
      .ok [[none, none, some 1, some 0]] ∧
    (([[none, none, some (1 : ℚ), some 0]] : Table).getD 0 []).getD 2 none =
      (if 2 ≤ 0 + 2 - 1 ∨ (3 < 4 - 1 ∧ 3 ≤ 2) then none
       else some ((windowCount (([[some (1 : ℚ), none, some 2, some 3]] : Table).getD 0 [])
          2 2 : ℚ))) := by
  have hpin : nan_by_window [[some (1 : ℚ), none, some 2, some 3]] ((2 : Nat) : Int) =
      .ok [[none, none, some 1, some 0]] := by
    norm_num [nan_by_window, rolling_mean_df, exceptMap, rolling_mean_df_col, convOnes,
      isnaInd, scaleCol, maskCol, pySlice, firstValid, lastValid, spanStart,
      List.range_succ, show ((2 : Int)).toNat = 2 from rfl]
  obtain ⟨out, hout, hlen, hspan, hshort, hnospan⟩ :=
    C1_nan_by_window_boundaries [[some (1 : ℚ), none, some 2, some 3]] 4 2
      (by intro c hc; rw [List.mem_singleton] at hc; subst hc; rfl) (by omega) (by omega)
  have hpin2 : (Except.ok out : Except PyErr Table) =
      Except.ok [[none, none, some (1 : ℚ), some 0]] := by
    rw [← hout, hpin]
  injection hpin2 with he
  subst he
  exact ⟨hpin, hspan 0 0 3 (by decide) (by decide) (by decide) (by decide) 2 (by decide)⟩

/-- Claim C3 as stated is false for a column with no observed value: the
source slices `s[None:None]` (the whole column) instead of an empty
span, so `pc_nan` reports 100 (a number, not a missing marker),
`find_contiguous_nan` records the full run, and `nan_by_window` keeps
the raw count from row `W` onward. -/
theorem C3_counterexample :
    pc_nan [[(none : Cell), none]] = [some 100] ∧
    (some (100 : ℚ) : Option ℚ) ≠ none ∧
    nan_by_window [[(none : Cell), none]] 1 = .ok [[none, some 1]] ∧
    ([none, some (1 : ℚ)] : Col) ≠ [none, none] := by
  refine ⟨?_, by decide, ?_, by decide⟩
  · norm_num [pc_nan, pc_nan_col, pySlice, firstValid, lastValid]
  · norm_num [nan_by_window, rolling_mean_df, exceptMap, rolling_mean_df_col, convOnes,
      isnaInd, scaleCol, maskCol, pySlice, firstValid, lastValid, spanStart,
      List.range_succ]
    all_goals (intro h; exact absurd h (by simp))

/-- Claim C3 (amended): for `1 ≤ W ≤ N`, a column with at least one
observed value whose ObservedSpan is shorter than `W` makes
`nan_by_window` emit the missing marker for every cell of that column
(the caught `IndexError` path) rather than raising; the column is
processed independently (running it alone yields the same column), and
`pc_nan` and `find_contiguous_nan` still produce one entry per column.
Columns with no observed value are instead treated as spanning the whole
table (see the counterexample). -/
theorem C3_short_span_column (cols : Table) (N W k : Nat) (c : Col) (f l : Nat)
    (huni : ∀ cc ∈ cols, cc.length = N) (hW : 1 ≤ W) (hWN : W ≤ N)
    (hk : k < cols.length) (hc : cols.getD k [] = c)
    (hf : firstValid c = some f) (hl : lastValid c = some l) (hshort : l + 1 - f < W) :
    ∃ out, nan_by_window cols (W : Int) = .ok out ∧
      out.getD k [] = List.replicate N none ∧
      nan_by_window [c] (W : Int) = .ok [out.getD k []] ∧
      (pc_nan cols).length = cols.length ∧
      (find_contiguous_nan cols).length = cols.length := by
  obtain ⟨out, hout, hlen, hcol⟩ := nan_by_window_ok cols N W huni hW hWN
  have hcN : c.length = N := by
    rw [← hc]
    apply huni
    rw [getD_of_lt cols k [] hk]
    exact List.getElem_mem hk
  have hval := hcol k hk
  rw [hc] at hval
  have hblen : (scaleCol (W : Int) (rmdVal (isnaInd c) W)).length = c.length := by
    rw [scaleCol_length, rmdVal_length _ W hW (by rw [isnaInd_length, hcN]; omega),
      isnaInd_length]
  have hmask : maskCol c W (scaleCol (W : Int) (rmdVal (isnaInd c) W)) =
      List.replicate N none := by
    rw [maskCol_short c W _ f l hf hl hshort, hblen, hcN]
  obtain ⟨out1, hout1, hlen1, hcol1⟩ := nan_by_window_ok [c] N W
    (by intro cc hcc; rw [List.mem_singleton] at hcc; subst hcc; exact hcN) hW hWN
  have hval1 := hcol1 0 (by simp)
  have hout1_eq : out1 = [maskCol c W (scaleCol (W : Int) (rmdVal (isnaInd c) W))] := by
    have h1 : out1.length = 1 := by rw [hlen1]; rfl
    obtain ⟨a, ha⟩ := List.length_eq_one.mp h1
    subst ha
    rw [show ([a] : Table).getD 0 [] = a from rfl] at hval1
    rw [hval1]
    rfl
  refine ⟨out, hout, ?_, ?_, by rw [pc_nan, List.length_map],
    by rw [find_contiguous_nan, List.length_map]⟩
  · rw [hval, hmask]
  · rw [hout1, hout1_eq, hval]

/-- Witness for C3 (amended): second column has span rows 1..2, shorter
than `W = 3`, and comes out entirely missing, identically when run
alone. -/
theorem C3_short_span_column_witness :
    nan_by_window [[some (1 : ℚ), some 1, some 1, some 1], [none, some 1, some 1, none]]
      ((3 : Nat) : Int) = .ok [[none, none, none, some 0], List.replicate 4 none] ∧
    nan_by_window [[(none : Cell), some 1, some 1, none]] ((3 : Nat) : Int) =
      .ok [List.replicate 4 none] := by
  have hpin : nan_by_window
      [[some (1 : ℚ), some 1, some 1, some 1], [none, some 1, some 1, none]]
      ((3 : Nat) : Int) = .ok [[none, none, none, some 0], List.replicate 4 none] := by
    norm_num [nan_by_window, rolling_mean_df, exceptMap, rolling_mean_df_col, convOnes,
      isnaInd, scaleCol, maskCol, pySlice, firstValid, lastValid, spanStart,
      List.range_succ, List.replicate, show ((3 : Int)).toNat = 3 from rfl]
  obtain ⟨out, hout, hrep, hsingle, -, -⟩ := C3_short_span_column
    [[some (1 : ℚ), some 1, some 1, some 1], [none, some 1, some 1, none]] 4 3 1
    [none, some 1, some 1, none] 1 2
    (by
      intro cc hcc
      rw [List.mem_cons, List.mem_singleton] at hcc
      rcases hcc with h | h <;> (subst h; rfl))
    (by omega) (by omega) (by decide) (by decide) (by decide) (by decide) (by omega)
  rw [hrep] at hsingle
  exact ⟨hpin, hsingle⟩

end Narest
